import Mathlib

/-!
# Verification of the pyGSTi germ-selection engine

A shallow embedding, in Lean 4, of `packages/pygsti/algorithms/germselection.py`
together with proofs about the claims made by the specification of that module.

The development has four parts.

* Part A embeds the combinatorial search layer of `optimize_integer_germs_slack`
  and `optimize_integer_germs_slack_multiple_gatesets`: weight vectors as
  `List Bool`, single-bit-flip neighbor enumeration, the per-iteration neighbor
  scan, the slack-based relaxation rescan, the score cache, and the top-level
  control flow (configuration checks, randomization, the initial completeness
  test, the main loop).  The numeric eigenvalue score (lines 429-431 / 687-690
  of the source) is abstracted as an oracle `eigScore : List Bool → α` over an
  ordered field `α`, since the claims about this layer quantify over the scores
  a model could produce; the concrete eigenvalue formulas are embedded
  separately in Part C.

* Part B embeds `_SuperOpForPerfectTwirl` over complex matrices.

* Part C embeds the eigenvalue-based definitions: the sorted spectrum of a
  complex matrix (as a characteristic-polynomial predicate), the
  `test_germ_list_finitel` success criterion, and the score formulas of
  `compute_score` in the single-model and multiple-gateset optimizers.

* Part D proves Weyl-type monotonicity of sorted eigenvalues under addition of
  a positive-semidefinite matrix, from the spectral theorem, and derives the
  monotonicity of the amplification score when a germ is added.
-/

namespace GermSel

/-! ## Part A: weight vectors and the search loops -/

/-- `sum(weights)` for a 0/1 integer weight vector: the number of included
germs (called `L1` in the source). -/
def countTrue (w : List Bool) : ℕ := w.count true

/-- `v[i] = (v[i] + 1) % 2`: toggle entry `i` of a weight vector
(out-of-range `i` leaves the list unchanged, as `List.set` does). -/
def flipAt (w : List Bool) (i : ℕ) : List Bool := w.set i (! w.getD i false)

/-- `get_neighbors`: the single-bit flips of `w`, in index order
`0, 1, …, nGerms - 1` (the generator at lines 435-439 / 695-699). -/
def getNeighbors (nGerms : ℕ) (w : List Bool) : List (List Bool) :=
  (List.range nGerms).map (flipAt w)

/-- Insert a key into the score cache if it is not already present
(`compute_score` caches its result under the tuple-ized weight vector). -/
def addKey {β : Type} [DecidableEq β] (c : List β) (k : β) : List β :=
  if k ∈ c then c else c ++ [k]

variable {α : Type} [LinearOrderedCommRing α]

/-- Configuration of `optimize_integer_germs_slack` (the arguments that the
search loop reads).  `eigScore` abstracts the eigenvalue-based score
`1.0/sortedEigenvals[nGaugeParams]` computed at lines 429-431; Python
truthiness of the float arguments `fixedSlack`/`slackFrac` is `≠ 0`. -/
structure SingleCfg (α : Type) where
  numGates : ℕ
  forceSingletons : Bool
  forceSingletonsScore : α
  fixedSlack : α
  slackFrac : α
  maxIter : ℕ
  eigScore : List Bool → α

/-- `compute_score` (single-model, lines 422-433): the sentinel
`forceSingletonsScore` when `forceSingletons` holds and the first `numGates`
entries are not all set, else the eigenvalue-based score. -/
def computeScore (cfg : SingleCfg α) (w : List Bool) : α :=
  if cfg.forceSingletons ∧ countTrue (w.take cfg.numGates) ≠ cfg.numGates then
    cfg.forceSingletonsScore
  else cfg.eigScore w

/-- State of the main loop of `optimize_integer_germs_slack`: the current
weight vector, its score and cardinality, the `lessWeightOnly` flag, the
per-iteration `bFoundBetterNeighbor` flag, and the keys of the score cache. -/
structure LoopState (α : Type) where
  weights : List Bool
  score : α
  L1 : ℕ
  lessWeightOnly : Bool
  found : Bool
  cache : List (List Bool)
  deriving DecidableEq

/-- One step of the first neighbor scan (lines 457-472): score the neighbor
(through the cache), and move to it when its score is `≤` the current score
and either its cardinality is smaller or `lessWeightOnly` is still `False`. -/
def scanStep (cfg : SingleCfg α) (st : LoopState α) (nb : List Bool) : LoopState α :=
  if computeScore cfg nb ≤ st.score ∧ (countTrue nb < st.L1 ∨ st.lessWeightOnly = false) then
    { weights := nb, score := computeScore cfg nb, L1 := countTrue nb,
      lessWeightOnly := st.lessWeightOnly, found := true, cache := addKey st.cache nb }
  else { st with cache := addKey st.cache nb }

/-- The full first neighbor scan of one iteration.  The Python generator
`get_neighbors(weights)` captures the weight vector as it is when the scan
starts, so every neighbor is a single-bit flip of `st.weights` even after the
scan has accepted a move. -/
def scanNeighbors (cfg : SingleCfg α) (n : ℕ) (st : LoopState α) : LoopState α :=
  (getNeighbors n st.weights).foldl (scanStep cfg) { st with found := false }

/-- The slack used by the relaxation phase (lines 478-481): `fixedSlack` when
that argument is truthy, otherwise `score * slackFrac`. -/
def slackOf (cfg : SingleCfg α) (st : LoopState α) : α :=
  if cfg.fixedSlack = 0 then st.score * cfg.slackFrac else cfg.fixedSlack

/-- One step of the relaxed rescan (lines 488-492): move when the neighbor has
strictly fewer germs than the current cardinality and its cached score is
strictly below the (slack-increased) current score. -/
def relaxStep (cfg : SingleCfg α) (st : LoopState α) (nb : List Bool) : LoopState α :=
  if countTrue nb < st.L1 ∧ computeScore cfg nb < st.score then
    { weights := nb, score := computeScore cfg nb, L1 := countTrue nb,
      lessWeightOnly := st.lessWeightOnly, found := true, cache := st.cache }
  else st

/-- The relaxation phase (lines 475-492): set `lessWeightOnly`, add the slack
to the current score, and rescan all neighbors of the (unmoved) weight
vector.  Every neighbor is already in the cache at this point, so the cached
score read at line 489 equals `computeScore`. -/
def relaxPhase (cfg : SingleCfg α) (n : ℕ) (st : LoopState α) : LoopState α :=
  (getNeighbors n st.weights).foldl (relaxStep cfg)
    { st with lessWeightOnly := true, score := st.score + slackOf cfg st }

/-- The main loop (lines 450-500), by recursion on the remaining iteration
count.  `none` models the `assert(slack > 0)` failure at line 482; fuel
exhaustion is "Hit max. iterations"; a failed relaxation is
"Stationary point found!". -/
def runLoop (cfg : SingleCfg α) (n : ℕ) : ℕ → LoopState α → Option (LoopState α)
  | 0, st => some st
  | fuel + 1, st =>
    if (scanNeighbors cfg n st).found then runLoop cfg n fuel (scanNeighbors cfg n st)
    else if slackOf cfg (scanNeighbors cfg n st) ≤ 0 then none
    else if (relaxPhase cfg n (scanNeighbors cfg n st)).found then
      runLoop cfg n fuel (relaxPhase cfg n (scanNeighbors cfg n st))
    else some (relaxPhase cfg n (scanNeighbors cfg n st))

/-- `goodGermsList` (lines 506-509): the germs at the indices whose final
weight is 1. -/
def selectGerms {G : Type} (germsList : List G) (w : List Bool) : List G :=
  ((germsList.zip w).filter (fun p => p.2)).map (fun p => p.1)

/-- Result of `optimize_integer_germs_slack`: a `ValueError` on slack
misconfiguration, an `AssertionError` from `assert(slack > 0)`, or the chosen
germ sublist together with the final weights and the score-cache keys. -/
inductive SingleOutcome (G : Type) where
  | slackConfigError : SingleOutcome G
  | slackAssertError : SingleOutcome G
  | done (germs : List G) (weights : List Bool) (cacheKeys : List (List Bool)) : SingleOutcome G
  deriving DecidableEq

/-- The initial loop state of `optimize_integer_germs_slack` (lines 441-448):
all-ones weights and `lessWeightOnly = True` when no initial vector is given,
the given vector and `lessWeightOnly = False` otherwise; the initial score is
computed (and cached) before the loop starts. -/
def initStateSingle (cfg : SingleCfg α) (n : ℕ) (initW : Option (List Bool)) : LoopState α :=
  let w0 := initW.getD (List.replicate n true)
  { weights := w0, score := computeScore cfg w0, L1 := countTrue w0,
    lessWeightOnly := initW.isNone, found := false, cache := [w0] }

/-- `optimize_integer_germs_slack` (lines 309-514).  The slack configuration
check at lines 399-400 precedes everything else in the embedding, as it
precedes the Jacobian precomputation in the source. -/
def optimizeSingle {G : Type} (cfg : SingleCfg α) (germsList : List G)
    (initW : Option (List Bool)) : SingleOutcome G :=
  if (cfg.fixedSlack ≠ 0 ∧ cfg.slackFrac ≠ 0) ∨ (cfg.fixedSlack = 0 ∧ cfg.slackFrac = 0) then
    .slackConfigError
  else
    match runLoop cfg germsList.length cfg.maxIter (initStateSingle cfg germsList.length initW) with
    | none => .slackAssertError
    | some stF => .done (selectGerms germsList stF.weights) stF.weights stF.cache

/-- Configuration of `optimize_integer_germs_slack_multiple_gatesets` read by
its search loop.  `eigScoreM g w` abstracts the eigenvalue-based score
`list_score(sortedEigenvals[nGaugeParams:])` of weight vector `w` on gateset
number `g` (lines 687-690). -/
structure MultiCfg (α : Type) where
  numGates : ℕ
  forceSingletons : Bool
  forceSingletonsScore : α
  fixedSlack : α
  slackFrac : α
  maxIter : ℕ
  eigScoreM : ℕ → List Bool → α

/-- `compute_score` (multiple-gateset, lines 680-693) for gateset `g`. -/
def computeScoreM (cfg : MultiCfg α) (g : ℕ) (w : List Bool) : α :=
  if cfg.forceSingletons ∧ countTrue (w.take cfg.numGates) ≠ cfg.numGates then
    cfg.forceSingletonsScore
  else cfg.eigScoreM g w

/-- `np.max` of a nonempty list of scores (the empty case cannot arise for a
nonempty gateset list; Python would raise there). -/
def pyMax : List α → α
  | [] => 0
  | x :: xs => xs.foldl max x

/-- The worst-case (maximum over gatesets) score of a weight vector,
`_np.max(neighborScoreList)` at line 733. -/
def worstScore (cfg : MultiCfg α) (nm : ℕ) (w : List Bool) : α :=
  pyMax ((List.range nm).map fun g => computeScoreM cfg g w)

/-- Loop state of the multiple-gateset optimizer; the cache is keyed by
`(gateset number, weight vector)` pairs. -/
structure MLoopState (α : Type) where
  weights : List Bool
  score : α
  L1 : ℕ
  lessWeightOnly : Bool
  found : Bool
  cache : List (ℕ × List Bool)
  deriving DecidableEq

/-- Cache every `(gateset, neighbor)` pair not yet present (lines 726-731). -/
def addKeysM (nm : ℕ) (c : List (ℕ × List Bool)) (nb : List Bool) : List (ℕ × List Bool) :=
  (List.range nm).foldl (fun c2 g => addKey c2 (g, nb)) c

/-- One step of the first neighbor scan of the multiple-gateset optimizer
(lines 720-741): compare the worst-case score of the neighbor. -/
def scanStepM (cfg : MultiCfg α) (nm : ℕ) (st : MLoopState α) (nb : List Bool) : MLoopState α :=
  if worstScore cfg nm nb ≤ st.score ∧ (countTrue nb < st.L1 ∨ st.lessWeightOnly = false) then
    { weights := nb, score := worstScore cfg nm nb, L1 := countTrue nb,
      lessWeightOnly := st.lessWeightOnly, found := true, cache := addKeysM nm st.cache nb }
  else { st with cache := addKeysM nm st.cache nb }

/-- The full first neighbor scan of one iteration (multiple-gateset). -/
def scanNeighborsM (cfg : MultiCfg α) (nm n : ℕ) (st : MLoopState α) : MLoopState α :=
  (getNeighbors n st.weights).foldl (scanStepM cfg nm) { st with found := false }

/-- The slack of the relaxation phase (lines 746-750). -/
def slackOfM (cfg : MultiCfg α) (st : MLoopState α) : α :=
  if cfg.fixedSlack = 0 then st.score * cfg.slackFrac else cfg.fixedSlack

/-- One step of the relaxed rescan (lines 757-763); the cached per-gateset
scores read at line 758 equal `computeScoreM`, so their maximum is
`worstScore`. -/
def relaxStepM (cfg : MultiCfg α) (nm : ℕ) (st : MLoopState α) (nb : List Bool) : MLoopState α :=
  if countTrue nb < st.L1 ∧ worstScore cfg nm nb < st.score then
    { weights := nb, score := worstScore cfg nm nb, L1 := countTrue nb,
      lessWeightOnly := st.lessWeightOnly, found := true, cache := st.cache }
  else st

/-- The relaxation phase of the multiple-gateset optimizer (lines 743-763). -/
def relaxPhaseM (cfg : MultiCfg α) (nm n : ℕ) (st : MLoopState α) : MLoopState α :=
  (getNeighbors n st.weights).foldl (relaxStepM cfg nm)
    { st with lessWeightOnly := true, score := st.score + slackOfM cfg st }

/-- One iteration of the multiple-gateset main loop: `none` is the
`assert(slack > 0)` failure, otherwise the next state together with a flag
that is `true` when the loop breaks at a stationary point. -/
def iterOnceM (cfg : MultiCfg α) (nm n : ℕ) (st : MLoopState α) :
    Option (MLoopState α × Bool) :=
  if (scanNeighborsM cfg nm n st).found then some (scanNeighborsM cfg nm n st, false)
  else if slackOfM cfg (scanNeighborsM cfg nm n st) ≤ 0 then none
  else if (relaxPhaseM cfg nm n (scanNeighborsM cfg nm n st)).found then
    some (relaxPhaseM cfg nm n (scanNeighborsM cfg nm n st), false)
  else some (relaxPhaseM cfg nm n (scanNeighborsM cfg nm n st), true)

/-- The multiple-gateset main loop (lines 713-772), returning the final state
and the number of iterations executed. -/
def runLoopM (cfg : MultiCfg α) (nm n : ℕ) : ℕ → MLoopState α → ℕ → Option (MLoopState α × ℕ)
  | 0, st, k => some (st, k)
  | fuel + 1, st, k =>
    match iterOnceM cfg nm n st with
    | none => none
    | some (st2, stop) =>
      if stop then some (st2, k + 1) else runLoopM cfg nm n fuel st2 (k + 1)

/-- Result of `optimize_integer_germs_slack_multiple_gatesets`. -/
inductive MultiOutcome (G : Type) where
  | copiesConfigError : MultiOutcome G
  | scoreFuncError : MultiOutcome G
  | randomizeError : MultiOutcome G
  | slackConfigError : MultiOutcome G
  | slackAssertError : MultiOutcome G
  | abortNone : MultiOutcome G
  | done (germs : List G) (weights : List Bool) : MultiOutcome G
  deriving DecidableEq

/-- Observable trace of one invocation of the multiple-gateset optimizer: the
outcome, the results of the initial completeness tests actually performed (in
order, stopping at the first failure), the number of search iterations
executed, and the keys of the score cache. -/
structure MultiRun (G : Type) where
  outcome : MultiOutcome G
  testsRun : List Bool
  itersDone : ℕ
  cacheKeys : List (ℕ × List Bool)
  deriving DecidableEq

/-- The gateset list after the randomization block (lines 620-631): each
gateset replaced by `randomize_with_unitary` with per-copy seed `seed + i`
when there are several gatesets, `numCopies` randomized copies of the single
gateset otherwise.  `none` models the `TypeError` of `xrange(None)` (single
gateset, `numCopies` not given) and the `IndexError` of an empty list. -/
def randomizedModels {M : Type} (models : List M) (randomize : Bool)
    (numCopies : Option ℕ) (seed : ℕ) (randFn : ℕ → M → M) : Option (List M) :=
  if randomize then
    if models.length > 1 then
      some (models.mapIdx fun i m => randFn (seed + i) m)
    else
      match numCopies, models with
      | some nc, m0 :: _ => some ((List.range nc).map fun i => randFn (seed + i) m0)
      | some _, [] => none
      | none, _ => none
  else some models

/-- The initial completeness tests (lines 633-641): `test_germ_list_infl` on
each gateset in order, stopping at the first failure.  `testFn` abstracts
`test_germ_list_infl` applied to the full candidate germ list. -/
def testPrefix {M : Type} (testFn : M → Bool) : List M → List Bool
  | [] => []
  | m :: ms => if testFn m then true :: testPrefix testFn ms else [false]

/-- The initial loop state of the multiple-gateset optimizer (lines 701-711):
all-ones weights when no initial vector is given; `lessWeightOnly` stays
`False` either way (the assignment at line 705 is commented out in the
source); the initial per-gateset scores are computed and cached. -/
def initStateMulti (cfg : MultiCfg α) (nm n : ℕ) (initW : Option (List Bool)) : MLoopState α :=
  let w0 := initW.getD (List.replicate n true)
  { weights := w0, score := worstScore cfg nm w0, L1 := countTrue w0,
    lessWeightOnly := false, found := false, cache := addKeysM nm [] w0 }

/-- `optimize_integer_germs_slack_multiple_gatesets` (lines 516-786), in the
order of the source: the gatesets-versus-copies check (lines 608-609), the
`scoreFunc` name check (lines 611-618), randomization (lines 620-631), the
initial completeness tests (lines 633-641, returning the `None` sentinel on
the first failure), the slack configuration check (lines 651-652), then the
search loop. -/
def optimizeMulti {M G : Type} (cfg : MultiCfg α) (models : List M) (germsList : List G)
    (randomize : Bool) (numCopies : Option ℕ) (seed : ℕ)
    (randFn : ℕ → M → M) (testFn : M → Bool) (scoreFunc : String)
    (initW : Option (List Bool)) : MultiRun G :=
  if models.length > 1 ∧ numCopies.isSome then
    { outcome := .copiesConfigError, testsRun := [], itersDone := 0, cacheKeys := [] }
  else if scoreFunc ≠ "all" ∧ scoreFunc ≠ "worst" then
    { outcome := .scoreFuncError, testsRun := [], itersDone := 0, cacheKeys := [] }
  else
    match randomizedModels models randomize numCopies seed randFn with
    | none => { outcome := .randomizeError, testsRun := [], itersDone := 0, cacheKeys := [] }
    | some ms =>
      let tests := testPrefix testFn ms
      if tests.contains false then
        { outcome := .abortNone, testsRun := tests, itersDone := 0, cacheKeys := [] }
      else if (cfg.fixedSlack ≠ 0 ∧ cfg.slackFrac ≠ 0) ∨
          (cfg.fixedSlack = 0 ∧ cfg.slackFrac = 0) then
        { outcome := .slackConfigError, testsRun := tests, itersDone := 0, cacheKeys := [] }
      else
        let nm := ms.length
        let n := germsList.length
        match runLoopM cfg nm n cfg.maxIter (initStateMulti cfg nm n initW) 0 with
        | none =>
          { outcome := .slackAssertError, testsRun := tests, itersDone := 0, cacheKeys := [] }
        | some (stF, iters) =>
          { outcome := .done (selectGerms germsList stF.weights) stF.weights,
            testsRun := tests, itersDone := iters, cacheKeys := stF.cache }

/-! ### The first neighbor scan: claims about acceptance order (C2) -/

/-- The acceptance condition of the first neighbor scan (line 469), as a
function of the current score, cardinality and `lessWeightOnly` flag. -/
def acceptCond (cfg : SingleCfg α) (sc : α) (c1 : ℕ) (lwo : Bool) (nb : List Bool) : Prop :=
  computeScore cfg nb ≤ sc ∧ (countTrue nb < c1 ∨ lwo = false)

instance (cfg : SingleCfg α) (sc : α) (c1 : ℕ) (lwo : Bool) (nb : List Bool) :
    Decidable (acceptCond cfg sc c1 lwo nb) := by
  unfold acceptCond; infer_instance

/-- A neighbor qualifies for acceptance with respect to a loop state. -/
def qualifies (cfg : SingleCfg α) (st : LoopState α) (nb : List Bool) : Prop :=
  acceptCond cfg st.score st.L1 st.lessWeightOnly nb

instance (cfg : SingleCfg α) (st : LoopState α) (nb : List Bool) :
    Decidable (qualifies cfg st nb) := by
  unfold qualifies; infer_instance

theorem scanStep_of_not_qualifies (cfg : SingleCfg α) (st : LoopState α) (nb : List Bool)
    (h : ¬ qualifies cfg st nb) :
    scanStep cfg st nb = { st with cache := addKey st.cache nb } := by
  have h2 : ¬ (computeScore cfg nb ≤ st.score ∧
      (countTrue nb < st.L1 ∨ st.lessWeightOnly = false)) := h
  unfold scanStep
  rw [if_neg h2]

theorem scanStep_of_qualifies (cfg : SingleCfg α) (st : LoopState α) (nb : List Bool)
    (h : qualifies cfg st nb) :
    scanStep cfg st nb =
      { weights := nb, score := computeScore cfg nb, L1 := countTrue nb,
        lessWeightOnly := st.lessWeightOnly, found := true, cache := addKey st.cache nb } := by
  have h2 : computeScore cfg nb ≤ st.score ∧
      (countTrue nb < st.L1 ∨ st.lessWeightOnly = false) := h
  unfold scanStep
  rw [if_pos h2]

/-- While no neighbor qualifies, the scan changes only the cache. -/
theorem scanFold_of_forall_not_qualifies (cfg : SingleCfg α) (l : List (List Bool))
    (st : LoopState α)
    (h : ∀ x ∈ l, ¬ acceptCond cfg st.score st.L1 st.lessWeightOnly x) :
    (l.foldl (scanStep cfg) st).weights = st.weights ∧
      (l.foldl (scanStep cfg) st).score = st.score ∧
      (l.foldl (scanStep cfg) st).L1 = st.L1 ∧
      (l.foldl (scanStep cfg) st).lessWeightOnly = st.lessWeightOnly ∧
      (l.foldl (scanStep cfg) st).found = st.found := by
  induction l generalizing st with
  | nil => exact ⟨rfl, rfl, rfl, rfl, rfl⟩
  | cons x xs ih =>
    have hx : ¬ qualifies cfg st x := h x (List.mem_cons_self x xs)
    rw [List.foldl_cons, scanStep_of_not_qualifies cfg st x hx]
    exact ih { st with cache := addKey st.cache x } (fun y hy => h y (List.mem_cons_of_mem x hy))

/-- The `bFoundBetterNeighbor` flag never reverts to `False` inside a scan. -/
theorem scanFold_found_mono (cfg : SingleCfg α) (l : List (List Bool)) (st : LoopState α)
    (h : st.found = true) : (l.foldl (scanStep cfg) st).found = true := by
  induction l generalizing st with
  | nil => exact h
  | cons x xs ih =>
    rw [List.foldl_cons]
    by_cases hq : qualifies cfg st x
    · rw [scanStep_of_qualifies cfg st x hq]; exact ih _ rfl
    · rw [scanStep_of_not_qualifies cfg st x hq]; exact ih _ h

/-- The score of the scan state never increases inside a scan. -/
theorem scanFold_score_anti (cfg : SingleCfg α) (l : List (List Bool)) (st : LoopState α) :
    (l.foldl (scanStep cfg) st).score ≤ st.score := by
  induction l generalizing st with
  | nil => exact le_refl _
  | cons x xs ih =>
    rw [List.foldl_cons]
    by_cases hq : qualifies cfg st x
    · rw [scanStep_of_qualifies cfg st x hq]
      exact le_trans (ih _) hq.1
    · rw [scanStep_of_not_qualifies cfg st x hq]
      exact ih _

/-- The weight vector after a scan is the starting vector or a scanned one. -/
theorem scanFold_weights_mem (cfg : SingleCfg α) (l : List (List Bool)) (st : LoopState α) :
    (l.foldl (scanStep cfg) st).weights = st.weights ∨
      (l.foldl (scanStep cfg) st).weights ∈ l := by
  induction l generalizing st with
  | nil => exact Or.inl rfl
  | cons x xs ih =>
    rw [List.foldl_cons]
    rcases ih (scanStep cfg st x) with h | h
    · by_cases hq : qualifies cfg st x
      · have hw : (scanStep cfg st x).weights = x := by
          rw [scanStep_of_qualifies cfg st x hq]
        refine Or.inr ?_
        rw [h.trans hw]
        exact List.mem_cons_self x xs
      · have hw : (scanStep cfg st x).weights = st.weights := by
          rw [scanStep_of_not_qualifies cfg st x hq]
        exact Or.inl (h.trans hw)
    · exact Or.inr (List.mem_cons_of_mem x h)

/-- C2: the claim asserts that the scan stops changing state after the first
qualifying neighbor.  In the source the scan continues, comparing every later
neighbor against the *updated* score and cardinality, so a chain of
acceptances is possible.  This theorem proves the amended statement: the
first qualifying neighbor is accepted the moment it is scanned, the scan
reports success, and the final vector is the last link of the acceptance
chain — a neighbor whose score is at most the first qualifying neighbor's
score (the first qualifying neighbor itself, or a later one). -/
theorem C2_amended (cfg : SingleCfg α) (n : ℕ) (st : LoopState α)
    (l1 l2 : List (List Bool)) (nb : List Bool)
    (hdec : getNeighbors n st.weights = l1 ++ nb :: l2)
    (hpre : ∀ x ∈ l1, ¬ qualifies cfg st x)
    (hnb : qualifies cfg st nb) :
    ((l1 ++ [nb]).foldl (scanStep cfg) { st with found := false }).weights = nb ∧
    ((l1 ++ [nb]).foldl (scanStep cfg) { st with found := false }).score = computeScore cfg nb ∧
    (scanNeighbors cfg n st).found = true ∧
    (scanNeighbors cfg n st).score ≤ computeScore cfg nb ∧
    ((scanNeighbors cfg n st).weights = nb ∨ (scanNeighbors cfg n st).weights ∈ l2) := by
  have hst0 : ∀ x ∈ l1,
      ¬ acceptCond cfg (LoopState.score { st with found := false })
        (LoopState.L1 { st with found := false })
        (LoopState.lessWeightOnly { st with found := false }) x := hpre
  obtain ⟨hw, hs, hl, hlwo, _⟩ :=
    scanFold_of_forall_not_qualifies cfg l1 { st with found := false } hst0
  have hq1 : qualifies cfg (l1.foldl (scanStep cfg) { st with found := false }) nb := by
    unfold qualifies
    rw [hs, hl, hlwo]
    exact hnb
  have hmid : (l1 ++ [nb]).foldl (scanStep cfg) { st with found := false } =
      { weights := nb, score := computeScore cfg nb, L1 := countTrue nb,
        lessWeightOnly := (l1.foldl (scanStep cfg) { st with found := false }).lessWeightOnly,
        found := true,
        cache := addKey (l1.foldl (scanStep cfg) { st with found := false }).cache nb } := by
    rw [List.foldl_append, List.foldl_cons, List.foldl_nil,
      scanStep_of_qualifies cfg _ nb hq1]
  have hscan : scanNeighbors cfg n st =
      l2.foldl (scanStep cfg) ((l1 ++ [nb]).foldl (scanStep cfg) { st with found := false }) := by
    unfold scanNeighbors
    rw [hdec]
    have : l1 ++ nb :: l2 = (l1 ++ [nb]) ++ l2 := by simp
    rw [this, List.foldl_append]
  refine ⟨by rw [hmid], by rw [hmid], ?_, ?_, ?_⟩
  · rw [hscan]
    exact scanFold_found_mono cfg l2 _ (by rw [hmid])
  · rw [hscan, hmid]
    exact scanFold_score_anti cfg l2 _
  · rw [hscan, hmid]
    rcases scanFold_weights_mem cfg l2 _ with h | h
    · exact Or.inl h
    · exact Or.inr h

/-- Configuration used by the C2 run: two candidate germs, no singleton
forcing, and a score oracle under which both neighbors of `[false, false]`
improve, the second against the first's already-accepted score. -/
def c2cfg : SingleCfg ℤ :=
  { numGates := 0, forceSingletons := false, forceSingletonsScore := 0,
    fixedSlack := 1, slackFrac := 0, maxIter := 100,
    eigScore := fun w => if w = [true, false] then 5 else if w = [false, true] then 3 else 10 }

/-- The loop state entering the scanned iteration of the C2 run (its score is
the computed score of its weight vector, as in any reachable state). -/
def c2st : LoopState ℤ :=
  { weights := [false, false], score := 10, L1 := 0, lessWeightOnly := false,
    found := false, cache := [[false, false]] }

/-- C2 counterexample: in this iteration the first qualifying neighbor (in
enumeration order) is `[true, false]`, yet the weight vector at the end of
the neighbor scan is `[false, true]` — the scan moved again after accepting
the first qualifying neighbor.  The claim, which asserts the scan ends on the
first qualifying neighbor, is false here. -/
theorem C2_counterexample :
    computeScore c2cfg c2st.weights = c2st.score ∧
    getNeighbors 2 c2st.weights = [[true, false], [false, true]] ∧
    qualifies c2cfg c2st [true, false] ∧
    (scanNeighbors c2cfg 2 c2st).weights = [false, true] := by decide

/-- Witness for `C2_amended` at a concrete input. -/
theorem C2_witness :
    ((([] : List (List Bool)) ++ [[true, false]]).foldl (scanStep c2cfg)
        { c2st with found := false }).weights = [true, false] ∧
    (scanNeighbors c2cfg 2 c2st).found = true := by
  have h := C2_amended c2cfg 2 c2st [] [[false, true]] [true, false] (by decide)
    (by intro x hx; simp at hx) (by decide)
  exact ⟨h.1, h.2.2.1⟩

/-! ### The relaxation rescan: acceptance in the shrink-only phase (C3) -/

/-- The acceptance condition of the relaxed rescan (line 489): strictly fewer
germs than the current cardinality and cached score strictly below the
slack-increased current score. -/
def relaxCond (cfg : SingleCfg α) (sc : α) (c1 : ℕ) (nb : List Bool) : Prop :=
  countTrue nb < c1 ∧ computeScore cfg nb < sc

instance (cfg : SingleCfg α) (sc : α) (c1 : ℕ) (nb : List Bool) :
    Decidable (relaxCond cfg sc c1 nb) := by
  unfold relaxCond; infer_instance

theorem relaxStep_of_not_cond (cfg : SingleCfg α) (st : LoopState α) (nb : List Bool)
    (h : ¬ relaxCond cfg st.score st.L1 nb) : relaxStep cfg st nb = st := by
  have h2 : ¬ (countTrue nb < st.L1 ∧ computeScore cfg nb < st.score) := h
  unfold relaxStep
  rw [if_neg h2]

theorem relaxStep_of_cond (cfg : SingleCfg α) (st : LoopState α) (nb : List Bool)
    (h : relaxCond cfg st.score st.L1 nb) :
    relaxStep cfg st nb =
      { weights := nb, score := computeScore cfg nb, L1 := countTrue nb,
        lessWeightOnly := st.lessWeightOnly, found := true, cache := st.cache } := by
  have h2 : countTrue nb < st.L1 ∧ computeScore cfg nb < st.score := h
  unfold relaxStep
  rw [if_pos h2]

/-- While no neighbor satisfies the relaxed criterion, the rescan is the
identity on the state. -/
theorem relaxFold_of_forall_not (cfg : SingleCfg α) (l : List (List Bool)) (st : LoopState α)
    (h : ∀ x ∈ l, ¬ relaxCond cfg st.score st.L1 x) :
    l.foldl (relaxStep cfg) st = st := by
  induction l with
  | nil => rfl
  | cons x xs ih =>
    rw [List.foldl_cons, relaxStep_of_not_cond cfg st x (h x (List.mem_cons_self x xs))]
    exact ih (fun y hy => h y (List.mem_cons_of_mem x hy))

/-- Flipping one bit changes the number of included germs by at most one. -/
theorem countTrue_le_flipAt_succ (w : List Bool) (i : ℕ) :
    countTrue w ≤ countTrue (flipAt w i) + 1 := by
  induction w generalizing i with
  | nil => simp [flipAt, countTrue]
  | cons b t ih =>
    cases i with
    | zero =>
      cases b <;> simp [flipAt, countTrue, List.count_cons] <;> omega
    | succ j =>
      have hset : flipAt (b :: t) (j + 1) = b :: flipAt t j := by
        simp [flipAt, List.getD_cons_succ]
      rw [hset]
      cases b
      · simpa [countTrue, List.count_cons] using ih j
      · have := ih j
        simp only [countTrue, List.count_cons] at this ⊢
        omega

/-- Every neighbor is a single-bit flip of the scanned weight vector. -/
theorem mem_getNeighbors (n : ℕ) (w x : List Bool) (h : x ∈ getNeighbors n w) :
    ∃ i, x = flipAt w i := by
  rcases List.mem_map.1 h with ⟨i, _, hi⟩
  exact ⟨i, hi.symm⟩

/-- Once the relaxed rescan has accepted a (necessarily smaller-cardinality)
neighbor, no later neighbor of the same base vector can be accepted: every
neighbor has at least `countTrue w - 1` germs. -/
theorem relaxFold_after_accept (cfg : SingleCfg α) (w : List Bool) (l : List (List Bool))
    (st : LoopState α) (hsub : ∀ x ∈ l, ∃ i, x = flipAt w i)
    (hblock : st.L1 + 1 ≤ countTrue w) :
    l.foldl (relaxStep cfg) st = st := by
  apply relaxFold_of_forall_not
  intro x hx
  rcases hsub x hx with ⟨i, hi⟩
  intro hc
  have hc1 : countTrue x < st.L1 := hc.1
  have h1 : countTrue w ≤ countTrue x + 1 := hi ▸ countTrue_le_flipAt_succ w i
  omega

/-- The relaxed rescan never clears the `lessWeightOnly` flag. -/
theorem relaxFold_lwo (cfg : SingleCfg α) (l : List (List Bool)) (st : LoopState α)
    (h : st.lessWeightOnly = true) : (l.foldl (relaxStep cfg) st).lessWeightOnly = true := by
  induction l generalizing st with
  | nil => exact h
  | cons x xs ih =>
    rw [List.foldl_cons]
    by_cases hc : relaxCond cfg st.score st.L1 x
    · rw [relaxStep_of_cond cfg st x hc]
      exact ih _ h
    · rw [relaxStep_of_not_cond cfg st x hc]
      exact ih _ h

/-- C3: the claim asserts the relaxed rescan moves to the *lowest-score*
neighbor among those with score `≤ current + slack` and strictly fewer
germs.  In the source the rescan accepts the *first* neighbor in enumeration
order whose cached score is *strictly below* `current + slack` and whose
cardinality is strictly smaller — and, because an accepted move lowers the
cardinality bound below what any remaining single-bit flip can satisfy, that
first acceptance is final.  Amended statement: shrink-only mode is entered,
the slack is `fixedSlack` (when truthy) or `score * slackFrac`, the rescan
moves to the first strictly-qualifying neighbor if one exists, the state is
unchanged otherwise, and in that case the main loop terminates returning it. -/
theorem C3_amended (cfg : SingleCfg α) (n : ℕ) (st : LoopState α)
    (hL1 : st.L1 = countTrue st.weights) :
    (relaxPhase cfg n st).lessWeightOnly = true ∧
    (∀ l1 nb l2, getNeighbors n st.weights = l1 ++ nb :: l2 →
      (∀ x ∈ l1, ¬ relaxCond cfg (st.score + slackOf cfg st) st.L1 x) →
      relaxCond cfg (st.score + slackOf cfg st) st.L1 nb →
      (relaxPhase cfg n st).weights = nb ∧
        (relaxPhase cfg n st).score = computeScore cfg nb ∧
        (relaxPhase cfg n st).found = true) ∧
    ((∀ x ∈ getNeighbors n st.weights, ¬ relaxCond cfg (st.score + slackOf cfg st) st.L1 x) →
      (relaxPhase cfg n st).weights = st.weights ∧
        (relaxPhase cfg n st).found = st.found) ∧
    (∀ fuel st0, (scanNeighbors cfg n st0).found = false →
      ¬ slackOf cfg (scanNeighbors cfg n st0) ≤ 0 →
      (relaxPhase cfg n (scanNeighbors cfg n st0)).found = false →
      runLoop cfg n (fuel + 1) st0 = some (relaxPhase cfg n (scanNeighbors cfg n st0))) := by
  refine ⟨?_, ?_, ?_, ?_⟩
  · unfold relaxPhase
    exact relaxFold_lwo cfg _ _ rfl
  · intro l1 nb l2 hdec hpre hnb
    unfold relaxPhase
    rw [hdec]
    have hsplit : l1 ++ nb :: l2 = (l1 ++ [nb]) ++ l2 := by simp
    rw [hsplit, List.foldl_append, List.foldl_append]
    have hid : l1.foldl (relaxStep cfg)
        { st with lessWeightOnly := true, score := st.score + slackOf cfg st } =
        { st with lessWeightOnly := true, score := st.score + slackOf cfg st } :=
      relaxFold_of_forall_not cfg l1 _ hpre
    rw [hid, List.foldl_cons, List.foldl_nil, relaxStep_of_cond cfg _ nb hnb]
    have hblock : countTrue nb + 1 ≤ countTrue st.weights := by
      have := hnb.1
      omega
    have hsub : ∀ x ∈ l2, ∃ i, x = flipAt st.weights i := by
      intro x hx
      apply mem_getNeighbors n st.weights
      rw [hdec]
      exact List.mem_append_right l1 (List.mem_cons_of_mem nb hx)
    rw [relaxFold_after_accept cfg st.weights l2 _ hsub hblock]
    exact ⟨rfl, rfl, rfl⟩
  · intro hall
    unfold relaxPhase
    rw [relaxFold_of_forall_not cfg _ _ hall]
    exact ⟨rfl, rfl⟩
  · intro fuel st0 h1 h2 h3
    unfold runLoop
    rw [if_neg (by rw [h1]; exact Bool.false_ne_true), if_neg h2, if_neg (by
      rw [h3]; exact Bool.false_ne_true)]

/-- Configuration of the C3 run: both neighbors of `[true, true]` satisfy the
relaxed criterion, and the second one (in enumeration order) has the lower
score. -/
def c3cfg : SingleCfg ℤ :=
  { numGates := 0, forceSingletons := false, forceSingletonsScore := 0,
    fixedSlack := 1, slackFrac := 0, maxIter := 100,
    eigScore := fun w => if w = [false, true] then 9 else if w = [true, false] then 7 else 10 }

/-- State entering the relaxation phase of the C3 run (the first scan found
no mover; score equals the computed score of the weight vector). -/
def c3st : LoopState ℤ :=
  { weights := [true, true], score := 10, L1 := 2, lessWeightOnly := false,
    found := false, cache := [[true, true], [false, true], [true, false]] }

/-- C3 counterexample: with slack 1 both neighbors `[false, true]` (score 9)
and `[true, false]` (score 7) have strictly fewer germs and scores below
`10 + 1`, but the rescan moves to the first of them, `[false, true]`, not to
the lowest-score one, `[true, false]`.  The claim, which asserts the move is
to the lowest-score qualifying neighbor, is false here. -/
theorem C3_counterexample :
    computeScore c3cfg c3st.weights = c3st.score ∧
    relaxCond c3cfg (c3st.score + slackOf c3cfg c3st) c3st.L1 [true, false] ∧
    relaxCond c3cfg (c3st.score + slackOf c3cfg c3st) c3st.L1 [false, true] ∧
    computeScore c3cfg [true, false] < computeScore c3cfg [false, true] ∧
    (relaxPhase c3cfg 2 c3st).weights = [false, true] := by decide

/-- Witness for `C3_amended` at a concrete input. -/
theorem C3_witness :
    (relaxPhase c3cfg 2 c3st).lessWeightOnly = true ∧
    (relaxPhase c3cfg 2 c3st).weights = [false, true] ∧
    (relaxPhase c3cfg 2 c3st).found = true := by
  have h := C3_amended c3cfg 2 c3st (by decide)
  have h2 := h.2.1 [] [false, true] [[true, false]] (by decide)
    (by intro x hx; simp at hx) (by decide)
  exact ⟨h.1, h2.1, h2.2.2⟩

/-! ### Top-level control flow of the robust optimizer (C6, C7, C8) -/

/-- C6: when the full candidate germ list fails `test_germ_list_infl` on any
(possibly randomized) gateset, `optimize_integer_germs_slack_multiple_gatesets`
returns the `None` sentinel, with zero search iterations performed and an
empty score cache; the tests performed stop at the first failure. -/
theorem C6_infeasible_abort {M G : Type} (cfg : MultiCfg α) (models : List M)
    (germsList : List G) (randomize : Bool) (numCopies : Option ℕ) (seed : ℕ)
    (randFn : ℕ → M → M) (testFn : M → Bool) (scoreFunc : String)
    (initW : Option (List Bool)) (ms : List M)
    (hguard : ¬ (models.length > 1 ∧ numCopies.isSome))
    (hsf : scoreFunc = "all" ∨ scoreFunc = "worst")
    (hrand : randomizedModels models randomize numCopies seed randFn = some ms)
    (hfail : (testPrefix testFn ms).contains false = true) :
    optimizeMulti cfg models germsList randomize numCopies seed randFn testFn scoreFunc initW =
      { outcome := .abortNone, testsRun := testPrefix testFn ms,
        itersDone := 0, cacheKeys := [] } := by
  have hsf2 : ¬ (scoreFunc ≠ "all" ∧ scoreFunc ≠ "worst") := by
    rcases hsf with h | h
    · exact fun hc => hc.1 h
    · exact fun hc => hc.2 h
  unfold optimizeMulti
  rw [if_neg hguard, if_neg hsf2, hrand]
  simp only [hfail]
  rw [if_pos trivial]

/-- Witness for `C6_infeasible_abort` at a concrete input: one model, no
randomization, a failing completeness test. -/
theorem C6_witness :
    optimizeMulti
        ({ numGates := 0, forceSingletons := false, forceSingletonsScore := 0,
           fixedSlack := 1, slackFrac := 0, maxIter := 10,
           eigScoreM := fun _ _ => 0 } : MultiCfg ℤ)
        [()] ([] : List ℕ) false none 0 (fun _ m => m) (fun _ => false) "worst" none =
      { outcome := .abortNone, testsRun := [false], itersDone := 0, cacheKeys := [] } := by
  have h := C6_infeasible_abort
    ({ numGates := 0, forceSingletons := false, forceSingletonsScore := 0,
       fixedSlack := 1, slackFrac := 0, maxIter := 10,
       eigScoreM := fun _ _ => 0 } : MultiCfg ℤ)
    [()] ([] : List ℕ) false none 0 (fun _ m => m) (fun _ => false) "worst" none [()]
    (by decide) (Or.inr rfl) rfl rfl
  exact h

/-- Configuration with *both* `fixedSlack` and `slackFrac` supplied — the
misconfiguration that claim C7 says is rejected before any computation. -/
def c7cfg : MultiCfg ℤ :=
  { numGates := 0, forceSingletons := false, forceSingletonsScore := 0,
    fixedSlack := 1, slackFrac := 1, maxIter := 10, eigScoreM := fun _ _ => 0 }

/-- C7 counterexample: in the multiple-gateset optimizer the slack
configuration check sits *after* randomization and the initial completeness
tests (line 651 follows lines 620-641).  Here both slack arguments are
supplied, yet a failing completeness test makes the call return the `None`
sentinel: a completeness test was performed and no `ValueError` was ever
raised, so the error is not raised "before any computation begins". -/
theorem C7_counterexample :
    (c7cfg.fixedSlack ≠ 0 ∧ c7cfg.slackFrac ≠ 0) ∧
    (optimizeMulti c7cfg [()] ([] : List ℕ) false none 0 (fun _ m => m) (fun _ => false)
        "worst" none).outcome = MultiOutcome.abortNone ∧
    (optimizeMulti c7cfg [()] ([] : List ℕ) false none 0 (fun _ m => m) (fun _ => false)
        "worst" none).testsRun = [false] := by decide

/-- C7 (amended): the single-model optimizer raises the slack `ValueError`
first of all; the multiple-gateset optimizer checks the score-mode name
before any computation, but checks the slack configuration only *after*
randomization and the initial completeness tests — all tests run (and a
failing test preempts the error entirely, see `C7_counterexample`). -/
theorem C7_amended :
    (∀ (G : Type) (cfg : SingleCfg α) (germs : List G) (initW : Option (List Bool)),
      ((cfg.fixedSlack ≠ 0 ∧ cfg.slackFrac ≠ 0) ∨ (cfg.fixedSlack = 0 ∧ cfg.slackFrac = 0)) →
      optimizeSingle cfg germs initW = SingleOutcome.slackConfigError) ∧
    (∀ (M G : Type) (cfg : MultiCfg α) (models : List M) (germsList : List G)
      (randomize : Bool) (numCopies : Option ℕ) (seed : ℕ) (randFn : ℕ → M → M)
      (testFn : M → Bool) (scoreFunc : String) (initW : Option (List Bool)),
      ¬ (models.length > 1 ∧ numCopies.isSome) →
      scoreFunc ≠ "all" → scoreFunc ≠ "worst" →
      optimizeMulti cfg models germsList randomize numCopies seed randFn testFn scoreFunc
          initW =
        { outcome := .scoreFuncError, testsRun := [], itersDone := 0, cacheKeys := [] }) ∧
    (∀ (M G : Type) (cfg : MultiCfg α) (models : List M) (germsList : List G)
      (randomize : Bool) (numCopies : Option ℕ) (seed : ℕ) (randFn : ℕ → M → M)
      (testFn : M → Bool) (scoreFunc : String) (initW : Option (List Bool)) (ms : List M),
      ¬ (models.length > 1 ∧ numCopies.isSome) →
      (scoreFunc = "all" ∨ scoreFunc = "worst") →
      randomizedModels models randomize numCopies seed randFn = some ms →
      (testPrefix testFn ms).contains false = false →
      ((cfg.fixedSlack ≠ 0 ∧ cfg.slackFrac ≠ 0) ∨ (cfg.fixedSlack = 0 ∧ cfg.slackFrac = 0)) →
      optimizeMulti cfg models germsList randomize numCopies seed randFn testFn scoreFunc
          initW =
        { outcome := .slackConfigError, testsRun := testPrefix testFn ms,
          itersDone := 0, cacheKeys := [] }) := by
  refine ⟨?_, ?_, ?_⟩
  · intro G cfg germs initW hmis
    unfold optimizeSingle
    rw [if_pos hmis]
  · intro M G cfg models germsList randomize numCopies seed randFn testFn scoreFunc initW
      hguard h1 h2
    unfold optimizeMulti
    rw [if_neg hguard, if_pos ⟨h1, h2⟩]
  · intro M G cfg models germsList randomize numCopies seed randFn testFn scoreFunc initW ms
      hguard hsf hrand htests hmis
    have hsf2 : ¬ (scoreFunc ≠ "all" ∧ scoreFunc ≠ "worst") := by
      rcases hsf with h | h
      · exact fun hc => hc.1 h
      · exact fun hc => hc.2 h
    unfold optimizeMulti
    rw [if_neg hguard, if_neg hsf2, hrand]
    simp only [htests]
    rw [if_neg Bool.false_ne_true, if_pos hmis]

/-- Witness for `C7_amended`: its three branches applied at concrete inputs. -/
theorem C7_witness :
    optimizeSingle
        ({ numGates := 0, forceSingletons := false, forceSingletonsScore := 0,
           fixedSlack := 0, slackFrac := 0, maxIter := 1,
           eigScore := fun _ => 0 } : SingleCfg ℤ) ([] : List ℕ) none =
      SingleOutcome.slackConfigError ∧
    optimizeMulti c7cfg [()] ([] : List ℕ) false none 0 (fun _ m => m) (fun _ => true)
        "bogus" none =
      { outcome := .scoreFuncError, testsRun := [], itersDone := 0, cacheKeys := [] } ∧
    optimizeMulti c7cfg [()] ([] : List ℕ) false none 0 (fun _ m => m) (fun _ => true)
        "worst" none =
      { outcome := .slackConfigError, testsRun := [true], itersDone := 0, cacheKeys := [] } := by
  refine ⟨?_, ?_, ?_⟩
  · exact C7_amended.1 ℕ _ [] none (Or.inr ⟨rfl, rfl⟩)
  · exact C7_amended.2.1 Unit ℕ c7cfg [()] [] false none 0 (fun _ m => m) (fun _ => true)
      "bogus" none (by decide) (by decide) (by decide)
  · exact C7_amended.2.2 Unit ℕ c7cfg [()] [] false none 0 (fun _ m => m) (fun _ => true)
      "worst" none [()] (by decide) (Or.inr rfl) rfl rfl (Or.inl (by decide))

/-- Configuration of the C8 run: one candidate germ, one gateset, constant
scores, so that moves in either direction are always acceptable when the
`lessWeightOnly` flag permits them. -/
def c8cfg : MultiCfg ℤ :=
  { numGates := 0, forceSingletons := false, forceSingletonsScore := 0,
    fixedSlack := 1, slackFrac := 0, maxIter := 2, eigScoreM := fun _ _ => 1 }

/-- C8 counterexample: the multiple-gateset optimizer starts from the
all-ones vector with `lessWeightOnly = False` (the assignment at line 705 is
commented out), and a germ-count-increasing move is accepted: iteration 1
moves from `[1]` to `[0]` (0 germs), iteration 2 accepts the move back to
`[1]` (1 germ).  The claim, which asserts shrink-only mode is active from the
start in *every* optimizer variant, is false for this one. -/
theorem C8_counterexample :
    (initStateMulti c8cfg 1 1 none).lessWeightOnly = false ∧
    (iterOnceM c8cfg 1 1 (initStateMulti c8cfg 1 1 none)).map (fun p => p.1.L1) = some 0 ∧
    ((iterOnceM c8cfg 1 1 (initStateMulti c8cfg 1 1 none)).bind
      (fun p => (iterOnceM c8cfg 1 1 p.1).map (fun q => q.1.L1))) = some 1 := by decide

/-- C8 (amended): with no initial weight vector, both variants start from the
all-ones vector; the single-model variant then activates shrink-only mode
immediately (line 445), while the multiple-gateset variant leaves
`lessWeightOnly = False` (line 705 is commented out), so only the former can
never accept a germ-count-increasing move. -/
theorem C8_amended (cfg : SingleCfg α) (cfgM : MultiCfg α) (n nm : ℕ) :
    (initStateSingle cfg n none).weights = List.replicate n true ∧
    (initStateSingle cfg n none).lessWeightOnly = true ∧
    (initStateMulti cfgM nm n none).weights = List.replicate n true ∧
    (initStateMulti cfgM nm n none).lessWeightOnly = false :=
  ⟨rfl, rfl, rfl, rfl⟩

/-! ### The forceSingletons policy (C9) -/

/-- A weight vector includes all of the first `numGates` candidates (the
elementary gates): `_np.count_nonzero(wts[:numGates]) == numGates`. -/
def hasAllGates (numGates : ℕ) (w : List Bool) : Prop :=
  countTrue (w.take numGates) = numGates

instance (numGates : ℕ) (w : List Bool) : Decidable (hasAllGates numGates w) := by
  unfold hasAllGates; infer_instance

theorem computeScore_of_missing (cfg : SingleCfg α) (w : List Bool)
    (hfs : cfg.forceSingletons = true) (h : ¬ hasAllGates cfg.numGates w) :
    computeScore cfg w = cfg.forceSingletonsScore := by
  unfold computeScore
  rw [if_pos ⟨hfs, h⟩]

theorem computeScore_of_has (cfg : SingleCfg α) (w : List Bool)
    (h : hasAllGates cfg.numGates w) : computeScore cfg w = cfg.eigScore w := by
  unfold computeScore
  rw [if_neg (fun hc => hc.2 h)]

/-- Invariant of the first neighbor scan under the forceSingletons policy:
if every gate-complete vector scores at most `B < sentinel`, a state with a
gate-complete vector and score `≤ B` can only move to gate-complete vectors
with score `≤ B`. -/
theorem scanFold_singletons_inv (cfg : SingleCfg α) (B : α)
    (hfs : cfg.forceSingletons = true)
    (hBs : B < cfg.forceSingletonsScore)
    (l : List (List Bool)) (st : LoopState α)
    (hg : hasAllGates cfg.numGates st.weights) (hsc : st.score ≤ B) :
    hasAllGates cfg.numGates (l.foldl (scanStep cfg) st).weights ∧
      (l.foldl (scanStep cfg) st).score ≤ B := by
  induction l generalizing st with
  | nil => exact ⟨hg, hsc⟩
  | cons x xs ih =>
    rw [List.foldl_cons]
    by_cases hq : qualifies cfg st x
    · have hgx : hasAllGates cfg.numGates x := by
        by_contra hmiss
        have := computeScore_of_missing cfg x hfs hmiss
        have hle : computeScore cfg x ≤ st.score := hq.1
        rw [this] at hle
        exact absurd (le_trans hle hsc) (not_le.2 hBs)
      have hscx : computeScore cfg x ≤ B := le_trans hq.1 hsc
      rw [scanStep_of_qualifies cfg st x hq]
      exact ih _ hgx hscx
    · rw [scanStep_of_not_qualifies cfg st x hq]
      exact ih _ hg hsc

/-- Invariant of the relaxed rescan under the forceSingletons policy: from a
gate-complete state whose (slack-increased) score is at most the sentinel,
only gate-complete vectors of score `≤ B` can be accepted. -/
theorem relaxFold_singletons_inv (cfg : SingleCfg α) (B : α)
    (hfs : cfg.forceSingletons = true)
    (hB : ∀ w, hasAllGates cfg.numGates w → cfg.eigScore w ≤ B)
    (l : List (List Bool)) (st : LoopState α)
    (hg : hasAllGates cfg.numGates st.weights)
    (hsc : st.score ≤ cfg.forceSingletonsScore)
    (hf : st.found = true → st.score ≤ B) :
    hasAllGates cfg.numGates (l.foldl (relaxStep cfg) st).weights ∧
      (l.foldl (relaxStep cfg) st).score ≤ cfg.forceSingletonsScore ∧
      ((l.foldl (relaxStep cfg) st).found = true → (l.foldl (relaxStep cfg) st).score ≤ B) := by
  induction l generalizing st with
  | nil => exact ⟨hg, hsc, hf⟩
  | cons x xs ih =>
    rw [List.foldl_cons]
    by_cases hq : relaxCond cfg st.score st.L1 x
    · have hgx : hasAllGates cfg.numGates x := by
        by_contra hmiss
        have heq := computeScore_of_missing cfg x hfs hmiss
        have hlt : computeScore cfg x < st.score := hq.2
        rw [heq] at hlt
        exact absurd hsc (not_le.2 hlt)
      have hscx : computeScore cfg x ≤ B := by
        rw [computeScore_of_has cfg x hgx]
        exact hB x hgx
      rw [relaxStep_of_cond cfg st x hq]
      exact ih _ hgx (le_trans (le_of_lt hq.2) hsc) (fun _ => hscx)
    · rw [relaxStep_of_not_cond cfg st x hq]
      exact ih _ hg hsc hf

/-- Invariant of the first scan, phrased on `scanNeighbors`. -/
theorem scanNeighbors_singletons_inv (cfg : SingleCfg α) (B : α) (n : ℕ)
    (hfs : cfg.forceSingletons = true)
    (hBs : B < cfg.forceSingletonsScore)
    (st : LoopState α)
    (hg : hasAllGates cfg.numGates st.weights) (hsc : st.score ≤ B) :
    hasAllGates cfg.numGates (scanNeighbors cfg n st).weights ∧
      (scanNeighbors cfg n st).score ≤ B := by
  unfold scanNeighbors
  exact scanFold_singletons_inv cfg B hfs hBs _ _ hg hsc

/-- Invariant of the relaxed rescan, phrased on `relaxPhase`. -/
theorem relaxPhase_singletons_inv (cfg : SingleCfg α) (B : α) (n : ℕ)
    (hfs : cfg.forceSingletons = true)
    (hB : ∀ w, hasAllGates cfg.numGates w → cfg.eigScore w ≤ B)
    (st : LoopState α)
    (hg : hasAllGates cfg.numGates st.weights)
    (hbump : st.score + slackOf cfg st ≤ cfg.forceSingletonsScore)
    (hnf : st.found = false) :
    hasAllGates cfg.numGates (relaxPhase cfg n st).weights ∧
      (relaxPhase cfg n st).score ≤ cfg.forceSingletonsScore ∧
      ((relaxPhase cfg n st).found = true → (relaxPhase cfg n st).score ≤ B) := by
  unfold relaxPhase
  apply relaxFold_singletons_inv cfg B hfs hB
  · exact hg
  · exact hbump
  · intro hff
    have hff2 : st.found = true := hff
    rw [hnf] at hff2
    exact Bool.noConfusion hff2

/-- Invariant of the whole search loop under the forceSingletons policy with a
fixed slack: started from a gate-complete vector scoring `≤ B`, where
gate-complete vectors always score `≤ B < sentinel` and `B + fixedSlack ≤
sentinel`, the loop can only return gate-complete vectors. -/
theorem runLoop_singletons_inv (cfg : SingleCfg α) (B : α) (n : ℕ)
    (hfs : cfg.forceSingletons = true)
    (hfix : cfg.fixedSlack ≠ 0)
    (hB : ∀ w, hasAllGates cfg.numGates w → cfg.eigScore w ≤ B)
    (hBs : B < cfg.forceSingletonsScore)
    (hBslack : B + cfg.fixedSlack ≤ cfg.forceSingletonsScore) :
    ∀ (fuel : ℕ) (st : LoopState α), hasAllGates cfg.numGates st.weights → st.score ≤ B →
      ∀ stF, runLoop cfg n fuel st = some stF → hasAllGates cfg.numGates stF.weights := by
  intro fuel
  induction fuel with
  | zero =>
    intro st hg hsc stF h
    unfold runLoop at h
    injection h with h2
    rw [← h2]
    exact hg
  | succ fuel ih =>
    intro st hg hsc stF h
    unfold runLoop at h
    have h1 := scanNeighbors_singletons_inv cfg B n hfs hBs st hg hsc
    by_cases hf1 : (scanNeighbors cfg n st).found = true
    · rw [if_pos hf1] at h
      exact ih (scanNeighbors cfg n st) h1.1 h1.2 stF h
    · rw [if_neg hf1] at h
      by_cases hsl : slackOf cfg (scanNeighbors cfg n st) ≤ 0
      · rw [if_pos hsl] at h
        exact Option.noConfusion h
      · rw [if_neg hsl] at h
        have hslack : slackOf cfg (scanNeighbors cfg n st) = cfg.fixedSlack := by
          unfold slackOf
          rw [if_neg hfix]
        have hbump : (scanNeighbors cfg n st).score + slackOf cfg (scanNeighbors cfg n st) ≤
            cfg.forceSingletonsScore := by
          rw [hslack]
          exact le_trans (add_le_add_right h1.2 _) hBslack
        have h2 := relaxPhase_singletons_inv cfg B n hfs hB (scanNeighbors cfg n st)
          h1.1 hbump (Bool.not_eq_true _ ▸ hf1)
        by_cases hf2 : (relaxPhase cfg n (scanNeighbors cfg n st)).found = true
        · rw [if_pos hf2] at h
          exact ih _ h2.1 (h2.2.2 hf2) stF h
        · rw [if_neg hf2] at h
          injection h with h3
          rw [← h3]
          exact h2.1

/-- `hasAllGates` forces every one of the first `numGates` weights to be 1. -/
theorem hasAllGates_getD (k : ℕ) (w : List Bool) (h : hasAllGates k w) :
    ∀ i, i < k → w.getD i false = true := by
  intro i hik
  unfold hasAllGates countTrue at h
  have hmin : (w.take k).length = min k w.length := List.length_take k w
  have hcount : (w.take k).count true ≤ (w.take k).length := List.count_le_length true _
  have hlen2 : (w.take k).length = k := by
    rw [hmin]
    rcases Nat.le_total k w.length with hle | hle
    · exact Nat.min_eq_left hle
    · have : (w.take k).length ≤ w.length := by rw [hmin]; exact Nat.min_le_right _ _
      omega
  have hall : ∀ b ∈ w.take k, true = b :=
    (List.count_eq_length).1 (by omega)
  have hik2 : i < (w.take k).length := by omega
  have htk : (w.take k).get ⟨i, hik2⟩ = true :=
    (hall _ (List.get_mem _ _ _)).symm
  have hiw : i < w.length := by
    have h3 := hik2
    rw [hmin] at h3
    omega
  have hgt : (w.take k).get ⟨i, hik2⟩ = w.get ⟨i, hiw⟩ := by
    simp [List.get_take]
  rw [hgt] at htk
  rw [List.getD_eq_getElem?_getD, List.getElem?_eq_getElem hiw]
  simpa using htk

theorem selectGerms_cons {G : Type} (g : G) (gs : List G) (b : Bool) (t : List Bool) :
    selectGerms (g :: gs) (b :: t) =
      if b then g :: selectGerms gs t else selectGerms gs t := by
  cases b <;> simp [selectGerms]

/-- A germ whose weight is 1 appears in the selected sublist. -/
theorem selectGerms_mem {G : Type} :
    ∀ (germs : List G) (w : List Bool) (i : ℕ) (hig : i < germs.length),
      w.getD i false = true → germs.get ⟨i, hig⟩ ∈ selectGerms germs w := by
  intro germs
  induction germs with
  | nil =>
    intro w i hig
    exact absurd hig (by simp)
  | cons g gs ih =>
    intro w i hig hw
    cases w with
    | nil => simp at hw
    | cons b t =>
      rw [selectGerms_cons]
      cases i with
      | zero =>
        have hb : b = true := by simpa using hw
        rw [hb, if_pos rfl]
        exact List.mem_cons_self _ _
      | succ j =>
        have hj : j < gs.length := by simpa using hig
        have hmem := ih t j hj (by simpa using hw)
        cases b
        · simpa using hmem
        · rw [if_pos rfl]
          exact List.mem_cons_of_mem _ hmem

/-- C9: the claim asserts the returned germ list always contains the first
`numGates` candidates.  That fails in general (see `C9_counterexample`):
the sentinel is a score like any other, so a start missing a gate together
with an exhausted iteration budget — or a sentinel not exceeding the real
scores — returns a gate-incomplete set.  Amended statement: when the initial
vector is gate-complete, a fixed slack is used, and every gate-complete
vector scores at most `B` with `B < sentinel` and `B + fixedSlack ≤
sentinel`, the returned weight vector is gate-complete and the returned
germ list contains each of the first `numGates` candidates. -/
theorem C9_amended {G : Type} (cfg : SingleCfg α) (germsList : List G)
    (initW : Option (List Bool)) (B : α)
    (hfs : cfg.forceSingletons = true)
    (hfix : cfg.fixedSlack ≠ 0) (hsl : cfg.slackFrac = 0)
    (hB : ∀ w, hasAllGates cfg.numGates w → cfg.eigScore w ≤ B)
    (hBs : B < cfg.forceSingletonsScore)
    (hBslack : B + cfg.fixedSlack ≤ cfg.forceSingletonsScore)
    (hW0 : hasAllGates cfg.numGates (initW.getD (List.replicate germsList.length true))) :
    ∀ gl w ck, optimizeSingle cfg germsList initW = SingleOutcome.done gl w ck →
      hasAllGates cfg.numGates w ∧
      ∀ i, i < cfg.numGates → ∀ hig : i < germsList.length, germsList.get ⟨i, hig⟩ ∈ gl := by
  intro gl w ck h
  have hmis : ¬ ((cfg.fixedSlack ≠ 0 ∧ cfg.slackFrac ≠ 0) ∨
      (cfg.fixedSlack = 0 ∧ cfg.slackFrac = 0)) := by
    intro hc
    rcases hc with ⟨_, hc2⟩ | ⟨hc1, _⟩
    · exact hc2 hsl
    · exact hfix hc1
  unfold optimizeSingle at h
  rw [if_neg hmis] at h
  cases hrun : runLoop cfg germsList.length cfg.maxIter
      (initStateSingle cfg germsList.length initW) with
  | none =>
    rw [hrun] at h
    exact absurd h (by simp)
  | some stF =>
    rw [hrun] at h
    have hsc0 : (initStateSingle cfg germsList.length initW).score ≤ B := by
      have : (initStateSingle cfg germsList.length initW).score =
          computeScore cfg (initW.getD (List.replicate germsList.length true)) := rfl
      rw [this, computeScore_of_has cfg _ hW0]
      exact hB _ hW0
    have hinv := runLoop_singletons_inv cfg B germsList.length hfs hfix hB hBs hBslack
      cfg.maxIter (initStateSingle cfg germsList.length initW) hW0 hsc0 stF hrun
    injection h with h1 h2 h3
    constructor
    · rw [← h2]
      exact hinv
    · intro i hik hig
      rw [← h1]
      apply selectGerms_mem germsList stF.weights i hig
      exact hasAllGates_getD cfg.numGates stF.weights hinv i hik

/-- Configuration of the C9 counterexample run: one elementary gate required
first in the candidate list, forceSingletons on, but a zero iteration budget
and an initial vector missing the gate. -/
def c9cfg : SingleCfg ℤ :=
  { numGates := 1, forceSingletons := true, forceSingletonsScore := 100,
    fixedSlack := 1, slackFrac := 0, maxIter := 0, eigScore := fun _ => 1 }

/-- C9 counterexample: with `forceSingletons = True` and candidate list
`[37]` whose first (and only) entry is the elementary gate, the optimizer
returns the empty germ list — the sentinel penalty does not prevent a
gate-incomplete result. -/
theorem C9_counterexample :
    c9cfg.forceSingletons = true ∧
    optimizeSingle c9cfg [37] (some [false]) =
      SingleOutcome.done ([] : List ℕ) [false] [[false]] ∧
    (37 : ℕ) ∉ ([] : List ℕ) := by decide

/-- Configuration of the C9 witness run (an iteration budget of 1, default
all-ones start). -/
def c9wcfg : SingleCfg ℤ :=
  { numGates := 1, forceSingletons := true, forceSingletonsScore := 100,
    fixedSlack := 1, slackFrac := 0, maxIter := 1, eigScore := fun _ => 1 }

/-- Witness for `C9_amended` at a concrete input. -/
theorem C9_witness :
    hasAllGates c9wcfg.numGates [true] ∧ (37 : ℕ) ∈ selectGerms [(37 : ℕ)] [true] := by
  have h := C9_amended c9wcfg [(37 : ℕ)] none 1 rfl (by decide) rfl
    (fun w _ => le_refl 1) (by decide) (by decide) (by decide)
  have h2 := h (selectGerms [(37 : ℕ)] [true]) [true] [[true], [false]] (by decide)
  exact ⟨h2.1, h2.2 0 (by decide) (by decide)⟩

/-! ## Part B: the twirling superoperator (`_SuperOpForPerfectTwirl`) -/

open Matrix

/-- `Proj_i` before normalization (line 66): the diagonal 0/1 matrix selecting
the indices `j` with `|λ_i − λ_j| ≤ eps`. -/
noncomputable def projDiag {dim : ℕ} (evals : Fin dim → ℂ) (eps : ℝ) (i : Fin dim) :
    Matrix (Fin dim) (Fin dim) ℂ :=
  Matrix.diagonal fun j => if Complex.abs (evals i - evals j) ≤ eps then 1 else 0

/-- `Proj_i / float(np.sqrt(np.trace(Proj_i)))` (line 67): the selector
divided by the square root of its trace (the trace of a 0/1 diagonal matrix
is a nonnegative real, so the float conversion is its real part). -/
noncomputable def projNorm {dim : ℕ} (evals : Fin dim → ℂ) (eps : ℝ) (i : Fin dim) :
    Matrix (Fin dim) (Fin dim) ℂ :=
  ((Real.sqrt (Matrix.trace (projDiag evals eps i)).re : ℂ))⁻¹ • projDiag evals eps i

/-- `A = np.dot(wrtEvecs, np.dot(Proj_i, wrtEvecsInv))` (line 68), with the
eigendecomposition data `evals`, `V = wrtEvecs`, `Vinv = wrtEvecsInv`
(produced in the source by `np.linalg.eig` and `np.linalg.inv`). -/
noncomputable def twirlA {dim : ℕ} (evals : Fin dim → ℂ)
    (V Vinv : Matrix (Fin dim) (Fin dim) ℂ) (eps : ℝ) (i : Fin dim) :
    Matrix (Fin dim) (Fin dim) ℂ :=
  V * projNorm evals eps i * Vinv

/-- `_SuperOpForPerfectTwirl` (lines 51-71): start from the zero
`dim² × dim²` matrix and accumulate `np.kron(A, A.T)` over the eigenvalue
indices `i = 0, …, dim-1`. -/
noncomputable def SuperOpForPerfectTwirl {dim : ℕ} (evals : Fin dim → ℂ)
    (V Vinv : Matrix (Fin dim) (Fin dim) ℂ) (eps : ℝ) :
    Matrix (Fin dim × Fin dim) (Fin dim × Fin dim) ℂ :=
  (List.finRange dim).foldl
    (fun S i => S + Matrix.kroneckerMap (· * ·) (twirlA evals V Vinv eps i)
      (twirlA evals V Vinv eps i)ᵀ) 0

/-- The superoperator as the specification words it: the sum, over eigenvalue
indices, of `kron(A_i, A_iᵗ)` with `A_i = V·Proj_i·V⁻¹` (`V⁻¹` the matrix
inverse of the eigenvector matrix). -/
noncomputable def twirlSuperOpSpec {dim : ℕ} (evals : Fin dim → ℂ)
    (V : Matrix (Fin dim) (Fin dim) ℂ) (eps : ℝ) :
    Matrix (Fin dim × Fin dim) (Fin dim × Fin dim) ℂ :=
  ∑ i : Fin dim,
    Matrix.kroneckerMap (· * ·) (V * projNorm evals eps i * V⁻¹)
      (V * projNorm evals eps i * V⁻¹)ᵀ

theorem foldl_add_eq_sum {ι M : Type} [AddCommMonoid M] (l : List ι) (f : ι → M) (init : M) :
    l.foldl (fun s i => s + f i) init = init + (l.map f).sum := by
  induction l generalizing init with
  | nil => simp
  | cons x xs ih =>
    rw [List.foldl_cons, ih, List.map_cons, List.sum_cons, add_assoc]

/-- C1: for any eigendecomposition data with an invertible eigenvector matrix
(`V * Vinv = 1`) and any `eps ≥ 0`, `_SuperOpForPerfectTwirl` returns exactly
the sum over eigenvalue indices `i` of `kron(A_i, A_iᵗ)` with
`A_i = V·Proj_i·V⁻¹`, `Proj_i` the diagonal 0/1 selector of the indices
degenerate with `i` (within `eps`) divided by the square root of its trace. -/
theorem C1_twirl_superop {dim : ℕ} (evals : Fin dim → ℂ)
    (V Vinv : Matrix (Fin dim) (Fin dim) ℂ) (eps : ℝ)
    (heps : 0 ≤ eps) (hV : V * Vinv = 1) :
    SuperOpForPerfectTwirl evals V Vinv eps = twirlSuperOpSpec evals V eps := by
  have hinv : V⁻¹ = Vinv := Matrix.inv_eq_right_inv hV
  unfold SuperOpForPerfectTwirl twirlSuperOpSpec twirlA
  rw [hinv, foldl_add_eq_sum, zero_add, Fin.sum_univ_def]

/-- Witness for `C1_twirl_superop` at a concrete input (`dim = 1`, identity
eigenvector matrix, zero eigenvalue, `eps = 0`). -/
theorem C1_witness :
    (0 : ℝ) ≤ 0 ∧ ((1 : Matrix (Fin 1) (Fin 1) ℂ) * 1 = 1) ∧
      SuperOpForPerfectTwirl (fun _ : Fin 1 => (0 : ℂ)) 1 1 0 =
        twirlSuperOpSpec (fun _ : Fin 1 => (0 : ℂ)) 1 0 :=
  ⟨le_refl 0, one_mul 1,
    C1_twirl_superop (fun _ : Fin 1 => (0 : ℂ)) 1 1 0 (le_refl 0) (one_mul 1)⟩

/-! ## Part C: sorted spectra and the eigenvalue-based definitions

`np.linalg.eigvalsh` followed by `np.sort` produces the ascending list of
eigenvalues.  In the embedding a sorted spectrum is characterized by the
characteristic polynomial: `xs` is *the* ascending spectrum of `A` when it is
sorted, has length `d`, and `charpoly A = ∏ (X - xs[i])`.  For any matrix
this determines `xs` uniquely (`isSortedSpectrum_unique`). -/

open Polynomial

/-- `xs` is the ascending eigenvalue list of the `d × d` complex matrix `A`
(all eigenvalues real, listed with multiplicity in nondecreasing order). -/
def IsSortedSpectrum {d : ℕ} (A : Matrix (Fin d) (Fin d) ℂ) (xs : List ℝ) : Prop :=
  xs.length = d ∧ xs.Sorted (· ≤ ·) ∧
    A.charpoly = (xs.map fun x : ℝ => X - C (x : ℂ)).prod

theorem list_prod_linear_eq_multiset (xs : List ℝ) :
    ((xs.map fun x : ℝ => X - C (x : ℂ))).prod =
      (((List.map (fun x : ℝ => (x : ℂ)) xs : List ℂ) : Multiset ℂ).map
        fun a => X - C a).prod := by
  rw [Multiset.map_coe, Multiset.prod_coe, List.map_map]
  rfl

/-- A matrix has at most one ascending spectrum: two sorted factorizations of
the characteristic polynomial have the same root multiset, hence are equal. -/
theorem isSortedSpectrum_unique {d : ℕ} (A : Matrix (Fin d) (Fin d) ℂ) (xs ys : List ℝ)
    (hx : IsSortedSpectrum A xs) (hy : IsSortedSpectrum A ys) : xs = ys := by
  have hpoly : ((List.map (fun x : ℝ => (x : ℂ)) xs : List ℂ) : Multiset ℂ) =
      ((List.map (fun x : ℝ => (x : ℂ)) ys : List ℂ) : Multiset ℂ) := by
    have h1 := hx.2.2.symm.trans hy.2.2
    rw [list_prod_linear_eq_multiset, list_prod_linear_eq_multiset] at h1
    have h2 := congrArg Polynomial.roots h1
    rwa [Polynomial.roots_multiset_prod_X_sub_C, Polynomial.roots_multiset_prod_X_sub_C] at h2
  have hmul : (xs : Multiset ℝ) = (ys : Multiset ℝ) := by
    apply Multiset.map_injective Complex.ofReal_injective
    rw [Multiset.map_coe, Multiset.map_coe]
    exact hpoly
  exact List.eq_of_perm_of_sorted (Multiset.coe_eq_coe.1 hmul) hx.2.1 hy.2.1

theorem charpoly_fin_one (A : Matrix (Fin 1) (Fin 1) ℂ) : A.charpoly = X - C (A 0 0) := by
  unfold Matrix.charpoly
  rw [Matrix.det_fin_one]
  exact Matrix.charmatrix_apply_eq A 0

/-- The ascending spectrum of a `1 × 1` matrix with real entry `r` is `[r]`. -/
theorem isSortedSpectrum_fin_one (A : Matrix (Fin 1) (Fin 1) ℂ) (r : ℝ) (h : A 0 0 = (r : ℂ)) :
    IsSortedSpectrum A [r] := by
  refine ⟨rfl, List.sorted_singleton _, ?_⟩
  rw [charpoly_fin_one, h]
  simp

/-! ### `test_germ_list_finitel` (C5) -/

/-- `derivDaggerDeriv` (lines 209-210): the einsum
`result[i,k,l] = Σ_j conj(dprods[i,j,k]) · dprods[i,j,l]` divided by the
square of the (un-repeated) germ length. -/
noncomputable def derivDaggerDeriv {m d2 Pp : ℕ} (lens : Fin m → ℕ)
    (dprods : Fin m → Matrix (Fin d2) (Fin Pp) ℂ) (i : Fin m) : Matrix (Fin Pp) (Fin Pp) ℂ :=
  Matrix.of fun k l =>
    (∑ j, star (dprods i j k) * dprods i j l) / ((lens i : ℂ)) ^ 2

/-- `combinedDDD` (line 219): `einsum('i,ijk', weights, 1.0/L**2 *
derivDaggerDeriv)`.  `dprods i` is the flattened derivative of the `i`-th
germ repeated `L` times, supplied by the external model collaborator. -/
noncomputable def combinedDDD {m d2 Pp : ℕ} (L : ℕ) (lens : Fin m → ℕ) (weights : Fin m → ℝ)
    (dprods : Fin m → Matrix (Fin d2) (Fin Pp) ℂ) : Matrix (Fin Pp) (Fin Pp) ℂ :=
  Matrix.of fun k l =>
    ∑ i, (weights i : ℂ) * ((1 / (L : ℂ) ^ 2) * derivDaggerDeriv lens dprods i k l)

/-- The success criterion of `test_germ_list_finitel` (lines 220-223):
the entry at index `nGaugeParams` of the ascending spectrum of `combinedDDD`
exceeds `tol`. -/
def finitelSuccess {m d2 Pp : ℕ} (L : ℕ) (lens : Fin m → ℕ) (weights : Fin m → ℝ)
    (dprods : Fin m → Matrix (Fin d2) (Fin Pp) ℂ) (nGaugeParams : ℕ) (tol : ℝ) : Prop :=
  ∀ xs : List ℝ, IsSortedSpectrum (combinedDDD L lens weights dprods) xs →
    tol < xs.getD nGaugeParams 0

/-- The matrix the claim describes: the weighted sum of the `J`-adjoint-`J`
matrices with no per-germ normalization. -/
noncomputable def claimCombined {m d2 Pp : ℕ} (weights : Fin m → ℝ)
    (dprods : Fin m → Matrix (Fin d2) (Fin Pp) ℂ) : Matrix (Fin Pp) (Fin Pp) ℂ :=
  ∑ i, (weights i : ℂ) • ((dprods i)ᴴ * dprods i)

/-- The success criterion the claim describes. -/
def claimFinitelSuccess {m d2 Pp : ℕ} (weights : Fin m → ℝ)
    (dprods : Fin m → Matrix (Fin d2) (Fin Pp) ℂ) (nGaugeParams : ℕ) (tol : ℝ) : Prop :=
  ∀ ys : List ℝ, IsSortedSpectrum (claimCombined weights dprods) ys →
    tol < ys.getD nGaugeParams 0

/-- C5 (amended): `test_germ_list_finitel` succeeds iff the eigenvalue at
index `nGaugeParams` of the ascending spectrum of
`Σ_i weights[i]/(L²·len_i²) · J_iᴴ·J_i` exceeds `tol` — the weighted sum of
`J`-adjoint-`J` matrices *with* the per-germ normalization `1/(L·len_i)²`
the claim omits. -/
theorem C5_amended {m d2 Pp : ℕ} (L : ℕ) (lens : Fin m → ℕ) (weights : Fin m → ℝ)
    (dprods : Fin m → Matrix (Fin d2) (Fin Pp) ℂ) (nG : ℕ) (tol : ℝ) :
    combinedDDD L lens weights dprods =
      ∑ i, (((weights i : ℂ) / ((L : ℂ) ^ 2 * ((lens i : ℂ)) ^ 2))) •
        ((dprods i)ᴴ * dprods i) ∧
    (∀ xs, IsSortedSpectrum (combinedDDD L lens weights dprods) xs →
      (finitelSuccess L lens weights dprods nG tol ↔ tol < xs.getD nG 0)) := by
  constructor
  · ext k l
    simp only [combinedDDD, derivDaggerDeriv, Matrix.of_apply, Matrix.sum_apply,
      Matrix.smul_apply, Matrix.mul_apply, Matrix.conjTranspose_apply, smul_eq_mul]
    refine Finset.sum_congr rfl fun i _ => ?_
    ring
  · intro xs hxs
    constructor
    · intro hs
      exact hs xs hxs
    · intro hlt ys hys
      rw [isSortedSpectrum_unique _ ys xs hys hxs]
      exact hlt

/-- Concrete data for the C5 inputs: one germ of length 2, repetition count
`L = 1`, weight 1, derivative `[[2]]`, `nGaugeParams = 0`, `tol = 2`. -/
def c5lens : Fin 1 → ℕ := fun _ => 2

def c5w : Fin 1 → ℝ := fun _ => 1

noncomputable def c5d : Fin 1 → Matrix (Fin 1) (Fin 1) ℂ := fun _ => Matrix.of fun _ _ => 2

theorem c5code_spec : IsSortedSpectrum (combinedDDD 1 c5lens c5w c5d) [1] := by
  apply isSortedSpectrum_fin_one
  simp [combinedDDD, derivDaggerDeriv, c5lens, c5w, c5d, star_ofNat]
  norm_num

theorem c5claim_spec : IsSortedSpectrum (claimCombined c5w c5d) [4] := by
  apply isSortedSpectrum_fin_one
  simp [claimCombined, c5w, c5d, Matrix.mul_apply, Matrix.conjTranspose_apply, star_ofNat]
  norm_num

/-- C5 counterexample: the source divides each `J_iᴴ·J_i` by `(L·len_i)²`
(lines 209-219), which the claim's matrix omits; at this input the code's
spectrum is `[1]` and the claim's is `[4]`, so with `tol = 2` the function
returns `False` while the claim's criterion holds. -/
theorem C5_counterexample :
    IsSortedSpectrum (combinedDDD 1 c5lens c5w c5d) [1] ∧
    IsSortedSpectrum (claimCombined c5w c5d) [4] ∧
    ¬ (finitelSuccess 1 c5lens c5w c5d 0 2 ↔ claimFinitelSuccess c5w c5d 0 2) := by
  refine ⟨c5code_spec, c5claim_spec, ?_⟩
  intro hiff
  have hclaim : claimFinitelSuccess c5w c5d 0 2 := by
    intro ys hys
    rw [isSortedSpectrum_unique _ ys [4] hys c5claim_spec]
    norm_num
  have hcode := hiff.mpr hclaim [1] c5code_spec
  norm_num at hcode

/-- Witness for `C5_amended` at a concrete input. -/
theorem C5_witness :
    combinedDDD 1 c5lens c5w c5d =
      ∑ i, (((c5w i : ℂ) / (((1 : ℕ) : ℂ) ^ 2 * ((c5lens i : ℂ)) ^ 2))) •
        ((c5d i)ᴴ * c5d i) ∧
    (finitelSuccess 1 c5lens c5w c5d 0 2 ↔ (2 : ℝ) < ([(1 : ℝ)] : List ℝ).getD 0 0) := by
  have h := C5_amended 1 c5lens c5w c5d 0 2
  exact ⟨h.1, h.2 [1] c5code_spec⟩

/-! ### The score formulas of `compute_score` (C10) -/

/-- `min` of a nonempty list (the empty case cannot arise: Python's `min`
raises there). -/
noncomputable def pyMin : List ℝ → ℝ
  | [] => 0
  | x :: xs => xs.foldl min x

/-- The single-model score (line 431): `1.0/sortedEigenvals[nGaugeParams]`,
with no score-mode choice. -/
noncomputable def singleCriticalScore (nG : ℕ) (eigs : List ℝ) : ℝ := 1 / eigs.getD nG 0

/-- `list_score` for `scoreFunc='all'` in the multiple-gateset optimizer
(lines 612-613): `sum(1./np.abs(input_array))`. -/
noncomputable def listScoreAll (xs : List ℝ) : ℝ := (xs.map fun x => 1 / |x|).sum

/-- `list_score` for `scoreFunc='worst'` in the multiple-gateset optimizer
(lines 615-616): `1./min(np.abs(input_array))`. -/
noncomputable def listScoreWorst (xs : List ℝ) : ℝ := 1 / pyMin (xs.map fun x => |x|)

/-- `einsum('i,ijk', wts, twirledDerivDaggerDeriv)` (line 429) for a 0/1
weight vector. -/
noncomputable def weightedTDDD {m Pp : ℕ} (TDDD : Fin m → Matrix (Fin Pp) (Fin Pp) ℂ)
    (w : List Bool) : Matrix (Fin Pp) (Fin Pp) ℂ :=
  Matrix.of fun k l => ∑ i, (if w.getD i.1 false then (1 : ℂ) else 0) * TDDD i k l

/-- The value computed by the single-model `compute_score` (lines 422-433),
as a relation between the weight vector and the score: the sentinel on a
singleton violation, otherwise `1.0/sortedEigenvals[nGaugeParams]` of the
weighted `J.H*J` sum. -/
def computeScoreSpec {m Pp : ℕ} (fS : Bool) (numGates : ℕ) (sentinel : ℝ) (nG : ℕ)
    (TDDD : Fin m → Matrix (Fin Pp) (Fin Pp) ℂ) (w : List Bool) (s : ℝ) : Prop :=
  if fS ∧ countTrue (w.take numGates) ≠ numGates then s = sentinel
  else ∀ xs, IsSortedSpectrum (weightedTDDD TDDD w) xs → s = singleCriticalScore nG xs

theorem foldl_min_of_le (l : List ℝ) (a : ℝ) (h : ∀ x ∈ l, a ≤ x) : l.foldl min a = a := by
  induction l generalizing a with
  | nil => rfl
  | cons x xs ih =>
    rw [List.foldl_cons, min_eq_left (h x (List.mem_cons_self x xs))]
    exact ih a (fun y hy => h y (List.mem_cons_of_mem x hy))

/-- On a sorted list with positive head, `min(np.abs(...))` is the head. -/
theorem pyMin_abs_sorted_cons (h : ℝ) (t : List ℝ) (hsort : (h :: t).Sorted (· ≤ ·))
    (hpos : 0 < h) : pyMin ((h :: t).map fun x => |x|) = h := by
  have habs : |h| = h := abs_of_pos hpos
  show (t.map fun x => |x|).foldl min |h| = h
  rw [habs]
  rw [foldl_min_of_le]
  intro y hy
  rcases List.mem_map.1 hy with ⟨x, hx, rfl⟩
  exact le_trans ((List.sorted_cons.1 hsort).1 x hx) (le_abs_self x)

/-- C10: for every weight vector satisfying the singleton constraint, the
single-model `compute_score` yields exactly `1.0 / (ascending spectrum of
the weighted J.H*J sum at index nGaugeParams)`; when that eigenvalue is
positive this is precisely the `'worst'` score mode of the multiple-gateset
variant applied to the non-gauge part of the spectrum — the single-model
optimizer hard-codes the worst-case mode (and its `compute_score` exposes no
score-mode argument at all). -/
theorem C10_hardcoded_worst {m Pp : ℕ} (fS : Bool) (numGates nG : ℕ) (sentinel : ℝ)
    (TDDD : Fin m → Matrix (Fin Pp) (Fin Pp) ℂ) (w : List Bool) (s : ℝ) (xs : List ℝ)
    (hsing : countTrue (w.take numGates) = numGates)
    (hrel : computeScoreSpec fS numGates sentinel nG TDDD w s)
    (hxs : IsSortedSpectrum (weightedTDDD TDDD w) xs)
    (hlen : nG < xs.length) (hpos : 0 < xs.getD nG 0) :
    s = 1 / xs.getD nG 0 ∧ s = listScoreWorst (xs.drop nG) := by
  have hs : s = singleCriticalScore nG xs := by
    unfold computeScoreSpec at hrel
    rw [if_neg (fun hc => hc.2 hsing)] at hrel
    exact hrel xs hxs
  refine ⟨hs, ?_⟩
  rw [hs]
  unfold singleCriticalScore listScoreWorst
  congr 1
  obtain ⟨h0, t0, hcons⟩ : ∃ h0 t0, xs.drop nG = h0 :: t0 := by
    cases hd : xs.drop nG with
    | nil =>
      have hlend := List.length_drop nG xs
      rw [hd] at hlend
      simp at hlend
      omega
    | cons a b => exact ⟨a, b, rfl⟩
  have hget : xs[nG]? = some h0 := by
    have h2 := List.getElem?_drop xs nG 0
    rw [Nat.add_zero, hcons] at h2
    simpa using h2.symm
  have hhead : xs.getD nG 0 = h0 := by
    rw [List.getD_eq_getElem?_getD, hget]
    rfl
  have hsorted : (xs.drop nG).Sorted (· ≤ ·) := hxs.2.1.sublist (List.drop_sublist nG xs)
  rw [hcons] at hsorted
  rw [hcons, hhead, pyMin_abs_sorted_cons h0 t0 hsorted (hhead ▸ hpos)]

/-- Concrete `J.H*J` contribution used in the C10 witness. -/
noncomputable def c10T : Fin 1 → Matrix (Fin 1) (Fin 1) ℂ := fun _ => Matrix.of fun _ _ => 2

theorem c10spec : IsSortedSpectrum (weightedTDDD c10T [true]) [2] := by
  apply isSortedSpectrum_fin_one
  simp [weightedTDDD, c10T]

/-- Witness for `C10_hardcoded_worst` at a concrete input. -/
theorem C10_witness :
    (1 / 2 : ℝ) = 1 / (([(2 : ℝ)] : List ℝ).getD 0 0) ∧
    (1 / 2 : ℝ) = listScoreWorst (([(2 : ℝ)] : List ℝ).drop 0) := by
  have hrel : computeScoreSpec true 1 100 0 c10T [true] (1 / 2 : ℝ) := by
    unfold computeScoreSpec
    rw [if_neg (by decide)]
    intro xs hxs
    rw [isSortedSpectrum_unique _ xs [2] hxs c10spec]
    norm_num [singleCriticalScore]
  exact C10_hardcoded_worst true 1 0 100 c10T [true] (1 / 2) [2] (by decide) hrel c10spec
    (by decide) (by norm_num)

/-! ## Part D: eigenvalue monotonicity under positive-semidefinite updates (C4)

The claim C4 rests on Weyl's monotonicity principle: adding a
positive-semidefinite matrix to a Hermitian matrix cannot decrease any of its
ascending eigenvalues.  This section develops that principle from scratch over
plain `Fin d → ℂ` vectors, connects Mathlib's (unsorted) eigenvalue data to the
ascending spectrum `IsSortedSpectrum` used above, and derives the score
monotonicity of `compute_score` when a germ is added to the weight vector. -/

open scoped ComplexOrder

variable {d : ℕ}

/-- Complex dot pairing `⟨x, y⟩ = Σ conj(x i) * y i`. -/
noncomputable def dp (x y : Fin d → ℂ) : ℂ := Matrix.dotProduct (star x) y

/-- A family is orthonormal for the dot pairing. -/
def DPOrthonormal {ι : Type} [DecidableEq ι] (u : ι → (Fin d → ℂ)) : Prop :=
  ∀ i j, dp (u i) (u j) = if i = j then 1 else 0

theorem dp_add_left (x y z : Fin d → ℂ) : dp (x + y) z = dp x z + dp y z := by
  unfold dp
  rw [star_add, Matrix.add_dotProduct]

theorem dp_add_right (x y z : Fin d → ℂ) : dp x (y + z) = dp x y + dp x z := by
  unfold dp
  rw [Matrix.dotProduct_add]

theorem dp_zero_left (y : Fin d → ℂ) : dp 0 y = 0 := by
  unfold dp
  rw [star_zero, Matrix.zero_dotProduct]

theorem dp_zero_right (x : Fin d → ℂ) : dp x 0 = 0 := by
  unfold dp
  rw [Matrix.dotProduct_zero]

theorem dp_sum_left {ι : Type} [Fintype ι] (f : ι → (Fin d → ℂ)) (y : Fin d → ℂ) :
    dp (∑ i, f i) y = ∑ i, dp (f i) y := by
  classical
  refine Finset.cons_induction ?_ ?_ Finset.univ
  · simp [dp_zero_left]
  · intro a s ha ih
    rw [Finset.sum_cons, Finset.sum_cons, dp_add_left, ih]

theorem dp_sum_right {ι : Type} [Fintype ι] (x : Fin d → ℂ) (f : ι → (Fin d → ℂ)) :
    dp x (∑ i, f i) = ∑ i, dp x (f i) := by
  classical
  refine Finset.cons_induction ?_ ?_ Finset.univ
  · simp [dp_zero_right]
  · intro a s ha ih
    rw [Finset.sum_cons, Finset.sum_cons, dp_add_right, ih]

theorem dp_smul_left (c : ℂ) (x y : Fin d → ℂ) : dp (c • x) y = (starRingEnd ℂ) c * dp x y := by
  unfold dp
  rw [star_smul, Matrix.smul_dotProduct]
  rfl

theorem dp_smul_right (c : ℂ) (x y : Fin d → ℂ) : dp x (c • y) = c * dp x y := by
  unfold dp
  rw [Matrix.dotProduct_smul]
  rfl

/-- Quadratic expansion of the pairing over an orthonormal family. -/
theorem dp_comb_comb {ι : Type} [Fintype ι] [DecidableEq ι] (u : ι → (Fin d → ℂ))
    (hu : DPOrthonormal u) (a b : ι → ℂ) :
    dp (∑ i, a i • u i) (∑ j, b j • u j) = ∑ i, (starRingEnd ℂ) (a i) * b i := by
  rw [dp_sum_left]
  refine Finset.sum_congr rfl fun i _ => ?_
  rw [dp_sum_right]
  have hrow : ∀ j, dp (a i • u i) (b j • u j) = if i = j then (starRingEnd ℂ) (a i) * b j else 0 := by
    intro j
    rw [dp_smul_right, dp_smul_left, hu i j]
    by_cases h : i = j
    · simp [h, mul_comm]
    · simp [h]
  rw [Finset.sum_congr rfl fun j _ => hrow j]
  rw [Finset.sum_ite_eq Finset.univ i fun j => (starRingEnd ℂ) (a i) * b j]
  rw [if_pos (Finset.mem_univ i)]

/-- The quantity re (dp x x) is positive for nonzero `x`. -/
theorem dp_self_re_pos (x : Fin d → ℂ) (hx : x ≠ 0) : 0 < (dp x x).re := by
  have hdp : dp x x = ∑ i, ((Complex.normSq (x i) : ℂ)) := by
    unfold dp Matrix.dotProduct
    refine Finset.sum_congr rfl fun i _ => ?_
    simp [Complex.normSq_eq_conj_mul_self]
  rw [hdp, Complex.re_sum]
  have hnn : ∀ i ∈ Finset.univ, 0 ≤ ((Complex.normSq (x i) : ℂ)).re := by
    intro i _
    simp [Complex.normSq_nonneg]
  obtain ⟨i, hi⟩ : ∃ i, x i ≠ 0 := Function.ne_iff.1 hx
  refine Finset.sum_pos' hnn ⟨i, Finset.mem_univ i, ?_⟩
  simpa using Complex.normSq_pos.2 hi

theorem dp_self_re_nonneg (x : Fin d → ℂ) : 0 ≤ (dp x x).re := by
  by_cases hx : x = 0
  · simp [hx, dp_zero_left]
  · exact le_of_lt (dp_self_re_pos x hx)

theorem mulVec_comb (M : Matrix (Fin d) (Fin d) ℂ) {ι : Type} [Fintype ι]
    (u : ι → (Fin d → ℂ)) (μ : ι → ℝ) (hM : ∀ j, M *ᵥ u j = (μ j : ℂ) • u j) (c : ι → ℂ) :
    M *ᵥ (∑ j, c j • u j) = ∑ j, (c j * (μ j : ℂ)) • u j := by
  have h1 : M *ᵥ (∑ j, c j • u j) = ∑ j, M *ᵥ (c j • u j) := by
    rw [← Matrix.mulVecLin_apply, map_sum]
    refine Finset.sum_congr rfl fun j _ => ?_
    rw [Matrix.mulVecLin_apply]
  rw [h1]
  refine Finset.sum_congr rfl fun j _ => ?_
  rw [Matrix.mulVec_smul, hM j, smul_smul]

theorem quad_comb_re {ι : Type} [Fintype ι] [DecidableEq ι]
    (M : Matrix (Fin d) (Fin d) ℂ) (u : ι → (Fin d → ℂ)) (μ : ι → ℝ)
    (hu : DPOrthonormal u) (hM : ∀ j, M *ᵥ u j = (μ j : ℂ) • u j) (c : ι → ℂ) :
    (dp (∑ j, c j • u j) (M *ᵥ (∑ j, c j • u j))).re =
      ∑ j, μ j * Complex.normSq (c j) := by
  rw [mulVec_comb M u μ hM c, dp_comb_comb u hu, Complex.re_sum]
  refine Finset.sum_congr rfl fun j _ => ?_
  have : (starRingEnd ℂ) (c j) * (c j * (μ j : ℂ)) =
      ((Complex.normSq (c j) * μ j : ℝ) : ℂ) := by
    rw [← mul_assoc, ← Complex.normSq_eq_conj_mul_self, Complex.ofReal_mul]
  rw [this, Complex.ofReal_re, mul_comm]

theorem norm_comb_re {ι : Type} [Fintype ι] [DecidableEq ι]
    (u : ι → (Fin d → ℂ)) (hu : DPOrthonormal u) (c : ι → ℂ) :
    (dp (∑ j, c j • u j) (∑ j, c j • u j)).re = ∑ j, Complex.normSq (c j) := by
  rw [dp_comb_comb u hu, Complex.re_sum]
  refine Finset.sum_congr rfl fun j _ => ?_
  rw [← Complex.normSq_eq_conj_mul_self]
  exact Complex.ofReal_re _

theorem quad_re_le_bound {ι : Type} [Fintype ι] [DecidableEq ι]
    (M : Matrix (Fin d) (Fin d) ℂ) (u : ι → (Fin d → ℂ)) (μ : ι → ℝ)
    (hu : DPOrthonormal u) (hM : ∀ j, M *ᵥ u j = (μ j : ℂ) • u j)
    (b : ℝ) (hb : ∀ j, μ j ≤ b) (x : Fin d → ℂ)
    (hx : x ∈ Submodule.span ℂ (Set.range u)) :
    (dp x (M *ᵥ x)).re ≤ b * (dp x x).re := by
  obtain ⟨c, rfl⟩ := (mem_span_range_iff_exists_fun ℂ).1 hx
  rw [quad_comb_re M u μ hu hM c, norm_comb_re u hu c, Finset.mul_sum]
  refine Finset.sum_le_sum fun j _ => ?_
  exact mul_le_mul_of_nonneg_right (hb j) (Complex.normSq_nonneg _)

theorem bound_le_quad_re {ι : Type} [Fintype ι] [DecidableEq ι]
    (M : Matrix (Fin d) (Fin d) ℂ) (u : ι → (Fin d → ℂ)) (μ : ι → ℝ)
    (hu : DPOrthonormal u) (hM : ∀ j, M *ᵥ u j = (μ j : ℂ) • u j)
    (b : ℝ) (hb : ∀ j, b ≤ μ j) (x : Fin d → ℂ)
    (hx : x ∈ Submodule.span ℂ (Set.range u)) :
    b * (dp x x).re ≤ (dp x (M *ᵥ x)).re := by
  obtain ⟨c, rfl⟩ := (mem_span_range_iff_exists_fun ℂ).1 hx
  rw [quad_comb_re M u μ hu hM c, norm_comb_re u hu c, Finset.mul_sum]
  refine Finset.sum_le_sum fun j _ => ?_
  exact mul_le_mul_of_nonneg_right (hb j) (Complex.normSq_nonneg _)

theorem dporthonormal_linearIndependent {ι : Type} [Fintype ι] [DecidableEq ι]
    (u : ι → (Fin d → ℂ)) (hu : DPOrthonormal u) : LinearIndependent ℂ u := by
  rw [Fintype.linearIndependent_iff]
  intro c hc j
  have h := congrArg (dp (u j)) hc
  rw [dp_sum_right] at h
  have h2 : ∀ i, dp (u j) (c i • u i) = if j = i then c i else 0 := by
    intro i
    rw [dp_smul_right, hu j i]
    by_cases hij : j = i
    · simp [hij]
    · simp [hij]
  rw [Finset.sum_congr rfl fun i _ => h2 i, Finset.sum_ite_eq Finset.univ j c,
    if_pos (Finset.mem_univ j)] at h
  simpa [dp] using h

theorem finrank_span_dporthonormal {ι : Type} [Fintype ι] [DecidableEq ι]
    (u : ι → (Fin d → ℂ)) (hu : DPOrthonormal u) :
    Module.finrank ℂ (Submodule.span ℂ (Set.range u)) = Fintype.card ι :=
  finrank_span_eq_card (dporthonormal_linearIndependent u hu)

theorem exists_ne_zero_mem_inf (S T : Submodule ℂ (Fin d → ℂ))
    (h : d < Module.finrank ℂ ↥S + Module.finrank ℂ ↥T) :
    ∃ x : Fin d → ℂ, x ≠ 0 ∧ x ∈ S ∧ x ∈ T := by
  have h1 := Submodule.finrank_sup_add_finrank_inf_eq S T
  have h2 : Module.finrank ℂ ↥(S ⊔ T) ≤ Module.finrank ℂ (Fin d → ℂ) :=
    Submodule.finrank_le _
  have h3 : Module.finrank ℂ (Fin d → ℂ) = d := by
    rw [Module.finrank_fintype_fun_eq_card, Fintype.card_fin]
  have h4 : 0 < Module.finrank ℂ ↥(S ⊓ T) := by omega
  have h5 : S ⊓ T ≠ ⊥ := by
    intro hbot
    rw [hbot, finrank_bot] at h4
    omega
  obtain ⟨x, hxm, hx0⟩ := (Submodule.ne_bot_iff _).1 h5
  exact ⟨x, hx0, (Submodule.mem_inf.1 hxm).1, (Submodule.mem_inf.1 hxm).2⟩

variable {A : Matrix (Fin d) (Fin d) ℂ}

noncomputable def sortedEig (hA : A.IsHermitian) : Fin d → ℝ :=
  hA.eigenvalues ∘ ⇑(Tuple.sort hA.eigenvalues)

noncomputable def sortedVec (hA : A.IsHermitian) : Fin d → (Fin d → ℂ) :=
  fun j => ⇑(hA.eigenvectorBasis (Tuple.sort hA.eigenvalues j))

theorem sortedEig_monotone (hA : A.IsHermitian) : Monotone (sortedEig hA) :=
  Tuple.monotone_sort _

theorem mulVec_sortedVec (hA : A.IsHermitian) (j : Fin d) :
    A *ᵥ sortedVec hA j = (sortedEig hA j : ℂ) • sortedVec hA j := by
  have h := hA.mulVec_eigenvectorBasis (Tuple.sort hA.eigenvalues j)
  unfold sortedVec sortedEig
  rw [h]
  ext i
  simp [Complex.real_smul]

theorem sortedVec_dporthonormal (hA : A.IsHermitian) : DPOrthonormal (sortedVec hA) := by
  intro i j
  have h := hA.eigenvectorBasis.orthonormal
  rw [orthonormal_iff_ite] at h
  have h2 := h (Tuple.sort hA.eigenvalues i) (Tuple.sort hA.eigenvalues j)
  rw [EuclideanSpace.inner_eq_star_dotProduct] at h2
  have h3 : dp (sortedVec hA i) (sortedVec hA j) =
      if Tuple.sort hA.eigenvalues i = Tuple.sort hA.eigenvalues j then 1 else 0 := h2
  rw [h3]
  by_cases hij : i = j
  · simp [hij]
  · rw [if_neg (fun hc => hij ((Tuple.sort hA.eigenvalues).injective hc)), if_neg hij]

theorem DPOrthonormal.comp {ι κ : Type} [DecidableEq ι] [DecidableEq κ]
    {u : ι → (Fin d → ℂ)} (hu : DPOrthonormal u) (f : κ → ι)
    (hf : Function.Injective f) : DPOrthonormal (u ∘ f) := by
  intro i j
  have h := hu (f i) (f j)
  simp only [Function.comp_apply]
  rw [h]
  by_cases hij : i = j
  · simp [hij]
  · rw [if_neg (fun hc => hij (hf hc)), if_neg hij]

theorem card_le_add_card_ge (k : Fin d) :
    Fintype.card {j : Fin d // j ≤ k} + Fintype.card {j : Fin d // k ≤ j} = d + 1 := by
  classical
  rw [Fintype.card_subtype, Fintype.card_subtype]
  have hunion : (Finset.univ.filter (fun j : Fin d => j ≤ k)) ∪
      (Finset.univ.filter (fun j : Fin d => k ≤ j)) = Finset.univ := by
    ext j
    simp only [Finset.mem_union, Finset.mem_filter, Finset.mem_univ, true_and]
    exact iff_of_true (le_total j k) trivial
  have hinter : (Finset.univ.filter (fun j : Fin d => j ≤ k)) ∩
      (Finset.univ.filter (fun j : Fin d => k ≤ j)) = {k} := by
    ext j
    simp only [Finset.mem_inter, Finset.mem_filter, Finset.mem_univ, true_and,
      Finset.mem_singleton]
    constructor
    · intro ⟨h1, h2⟩
      exact le_antisymm h1 h2
    · intro h
      rw [h]
      exact ⟨le_refl k, le_refl k⟩
  have hc := Finset.card_union_add_card_inter
    (Finset.univ.filter (fun j : Fin d => j ≤ k))
    (Finset.univ.filter (fun j : Fin d => k ≤ j))
  rw [hunion, hinter] at hc
  rw [Finset.card_univ, Fintype.card_fin, Finset.card_singleton] at hc
  omega

/-- Weyl monotonicity: adding a positive-semidefinite matrix cannot decrease
any sorted eigenvalue. -/
theorem sortedEig_le_sortedEig_add {B : Matrix (Fin d) (Fin d) ℂ}
    (hA : A.IsHermitian) (hB : B.PosSemidef) (hAB : (A + B).IsHermitian) (k : Fin d) :
    sortedEig hA k ≤ sortedEig hAB k := by
  classical
  set v : {j : Fin d // j ≤ k} → (Fin d → ℂ) :=
    (sortedVec hAB) ∘ (fun j => j.1) with hv
  set u : {j : Fin d // k ≤ j} → (Fin d → ℂ) :=
    (sortedVec hA) ∘ (fun j => j.1) with husub
  have hvon : DPOrthonormal v := (sortedVec_dporthonormal hAB).comp _ Subtype.val_injective
  have huon : DPOrthonormal u := (sortedVec_dporthonormal hA).comp _ Subtype.val_injective
  have hdim : d < Module.finrank ℂ (Submodule.span ℂ (Set.range v)) +
      Module.finrank ℂ (Submodule.span ℂ (Set.range u)) := by
    rw [finrank_span_dporthonormal v hvon, finrank_span_dporthonormal u huon]
    rw [card_le_add_card_ge k]
    omega
  obtain ⟨x, hx0, hxS, hxT⟩ := exists_ne_zero_mem_inf _ _ hdim
  have hN : 0 < (dp x x).re := dp_self_re_pos x hx0
  have hupper : (dp x ((A + B) *ᵥ x)).re ≤ sortedEig hAB k * (dp x x).re := by
    refine quad_re_le_bound (A + B) v (fun j => sortedEig hAB j.1) hvon
      (fun j => mulVec_sortedVec hAB j.1) (sortedEig hAB k)
      (fun j => sortedEig_monotone hAB j.2) x hxS
  have hlower : sortedEig hA k * (dp x x).re ≤ (dp x (A *ᵥ x)).re := by
    refine bound_le_quad_re A u (fun j => sortedEig hA j.1) huon
      (fun j => mulVec_sortedVec hA j.1) (sortedEig hA k)
      (fun j => sortedEig_monotone hA j.2) x hxT
  have hpsd : 0 ≤ (dp x (B *ᵥ x)).re := hB.re_dotProduct_nonneg x
  have hadd : (dp x ((A + B) *ᵥ x)).re = (dp x (A *ᵥ x)).re + (dp x (B *ᵥ x)).re := by
    rw [Matrix.add_mulVec, dp_add_right, Complex.add_re]
  have hchain : sortedEig hA k * (dp x x).re ≤ sortedEig hAB k * (dp x x).re := by
    calc sortedEig hA k * (dp x x).re ≤ (dp x (A *ᵥ x)).re := hlower
      _ ≤ (dp x ((A + B) *ᵥ x)).re := by rw [hadd]; linarith
      _ ≤ sortedEig hAB k * (dp x x).re := hupper
  exact le_of_mul_le_mul_right (by simpa [mul_comm] using hchain) hN

/-- The characteristic polynomial is invariant under conjugation by a pair of
mutually inverse matrices. -/
theorem charpoly_conj (U D W : Matrix (Fin d) (Fin d) ℂ) (h1 : U * W = 1) :
    (U * D * W).charpoly = D.charpoly := by
  unfold Matrix.charpoly
  have hkey : charmatrix (U * D * W) =
      (C : ℂ →+* ℂ[X]).mapMatrix U * charmatrix D * (C : ℂ →+* ℂ[X]).mapMatrix W := by
    unfold charmatrix
    rw [mul_sub, sub_mul]
    congr 1
    · have hcomm : Commute (Matrix.scalar (Fin d) (X : ℂ[X]))
          ((C : ℂ →+* ℂ[X]).mapMatrix U) :=
        Matrix.scalar_commute (X : ℂ[X]) (fun r => Commute.all X r) _
      symm
      rw [← hcomm.eq, mul_assoc, ← RingHom.map_mul, h1, RingHom.map_one, mul_one]
    · rw [← RingHom.map_mul, ← RingHom.map_mul]
  rw [hkey, Matrix.det_mul, Matrix.det_mul]
  have hdet : ((C : ℂ →+* ℂ[X]).mapMatrix U).det * ((C : ℂ →+* ℂ[X]).mapMatrix W).det = 1 := by
    rw [mul_comm (((C : ℂ →+* ℂ[X]).mapMatrix U)).det, ← Matrix.det_mul,
      ← RingHom.map_mul]
    have h2 : W * U = 1 := Matrix.mul_eq_one_comm.1 h1
    rw [h2, RingHom.map_one, Matrix.det_one]
  calc ((C : ℂ →+* ℂ[X]).mapMatrix U).det * (charmatrix D).det *
        ((C : ℂ →+* ℂ[X]).mapMatrix W).det
      = (charmatrix D).det * (((C : ℂ →+* ℂ[X]).mapMatrix U).det *
        ((C : ℂ →+* ℂ[X]).mapMatrix W).det) := by ring
    _ = (charmatrix D).det := by rw [hdet, mul_one]

/-- The characteristic polynomial of a diagonal matrix. -/
theorem charpoly_diagonal (f : Fin d → ℂ) :
    (Matrix.diagonal f).charpoly = ∏ i, (X - C (f i)) := by
  unfold Matrix.charpoly
  have h : charmatrix (Matrix.diagonal f) = Matrix.diagonal fun i => X - C (f i) := by
    ext i j
    by_cases hij : i = j
    · subst hij
      rw [charmatrix_apply_eq, Matrix.diagonal_apply_eq, Matrix.diagonal_apply_eq]
    · rw [charmatrix_apply_ne _ _ _ hij, Matrix.diagonal_apply_ne _ hij,
        Matrix.diagonal_apply_ne _ hij, map_zero, neg_zero]
  rw [h, Matrix.det_diagonal]

/-- The characteristic polynomial of a Hermitian matrix factors through its
(Mathlib) eigenvalues. -/
theorem charpoly_eq_prod_eigenvalues {A : Matrix (Fin d) (Fin d) ℂ} (hA : A.IsHermitian) :
    A.charpoly = ∏ i, (X - C ((hA.eigenvalues i : ℝ) : ℂ)) := by
  have hspec := hA.spectral_theorem
  calc A.charpoly
      = ((hA.eigenvectorUnitary : Matrix (Fin d) (Fin d) ℂ) *
          Matrix.diagonal (RCLike.ofReal ∘ hA.eigenvalues) *
          (star (hA.eigenvectorUnitary : Matrix (Fin d) (Fin d) ℂ))).charpoly := by
        rw [← hspec]
    _ = (Matrix.diagonal (RCLike.ofReal ∘ hA.eigenvalues)).charpoly := by
        apply charpoly_conj
        exact (Matrix.mem_unitaryGroup_iff).mp hA.eigenvectorUnitary.2
    _ = ∏ i, (X - C ((hA.eigenvalues i : ℝ) : ℂ)) := by
        rw [charpoly_diagonal]
        rfl

theorem map_comp_perm_univ {β : Type} (g : Fin d → β) (σ : Equiv.Perm (Fin d)) :
    Multiset.map (g ∘ ⇑σ) (Finset.univ : Finset (Fin d)).val =
      Multiset.map g (Finset.univ : Finset (Fin d)).val := by
  have h1 : Multiset.map (g ∘ ⇑σ) (Finset.univ : Finset (Fin d)).val =
      Multiset.map g (Multiset.map (⇑σ) (Finset.univ : Finset (Fin d)).val) := by
    rw [Multiset.map_map]
  have h3 := congrArg Finset.val (Finset.map_univ_equiv σ)
  rw [Finset.map_val, Equiv.coe_toEmbedding] at h3
  rw [h1, h3]

/-- Any sorted spectrum of a Hermitian matrix equals the ascending list of its
eigenvalues. -/
theorem isSortedSpectrum_eq_sortedEigList {A : Matrix (Fin d) (Fin d) ℂ}
    (hA : A.IsHermitian) (xs : List ℝ) (hxs : IsSortedSpectrum A xs) :
    xs = List.ofFn (sortedEig hA) := by
  have hsorted2 : (List.ofFn (sortedEig hA)).Sorted (· ≤ ·) :=
    List.sorted_le_ofFn_iff.2 (sortedEig_monotone hA)
  have hxroots : ((List.map Complex.ofReal xs : List ℂ) : Multiset ℂ) =
      A.charpoly.roots := by
    rw [hxs.2.2]
    have h1 : (xs.map fun x : ℝ => X - C (x : ℂ)).prod =
        (((List.map Complex.ofReal xs : List ℂ) : Multiset ℂ).map
          fun a => X - C a).prod := by
      rw [Multiset.map_coe, Multiset.prod_coe, List.map_map]
      rfl
    rw [h1, Polynomial.roots_multiset_prod_X_sub_C]
  have heroots : Multiset.map (Complex.ofReal ∘ hA.eigenvalues)
      (Finset.univ : Finset (Fin d)).val = A.charpoly.roots := by
    rw [charpoly_eq_prod_eigenvalues hA]
    have h1 : ∏ i, (X - C (Complex.ofReal (hA.eigenvalues i))) =
        ((Multiset.map (Complex.ofReal ∘ hA.eigenvalues)
          (Finset.univ : Finset (Fin d)).val).map fun a => X - C a).prod := by
      rw [Multiset.map_map]
      rfl
    rw [h1, Polynomial.roots_multiset_prod_X_sub_C]
  have hsroots : ((List.map Complex.ofReal (List.ofFn (sortedEig hA)) : List ℂ) :
      Multiset ℂ) = A.charpoly.roots := by
    have h0 : ((List.ofFn (sortedEig hA) : List ℝ) : Multiset ℝ) =
        Multiset.map (sortedEig hA) (Finset.univ : Finset (Fin d)).val := by
      rw [List.ofFn_eq_map]
      rfl
    rw [← Multiset.map_coe, h0, Multiset.map_map]
    have h2 : Complex.ofReal ∘ sortedEig hA =
        (Complex.ofReal ∘ hA.eigenvalues) ∘ ⇑(Tuple.sort hA.eigenvalues) := rfl
    rw [h2, map_comp_perm_univ]
    exact heroots
  have hreal : (xs : Multiset ℝ) = ((List.ofFn (sortedEig hA) : List ℝ) : Multiset ℝ) := by
    apply Multiset.map_injective Complex.ofReal_injective
    rw [Multiset.map_coe, Multiset.map_coe, hxroots, hsroots]
  exact List.eq_of_perm_of_sorted (Multiset.coe_eq_coe.1 hreal) hxs.2.1 hsorted2

theorem getD_drop (l : List ℝ) (n j : ℕ) : (l.drop n).getD j 0 = l.getD (n + j) 0 := by
  rw [List.getD_eq_getElem?_getD, List.getD_eq_getElem?_getD, List.getElem?_drop]

theorem foldl_min_le_foldl_min :
    ∀ (t s : List ℝ) (a b : ℝ), t.length = s.length → a ≤ b →
      (∀ j, j < t.length → t.getD j 0 ≤ s.getD j 0) →
      t.foldl min a ≤ s.foldl min b := by
  intro t
  induction t with
  | nil =>
    intro s a b hlen hab _
    cases s with
    | nil => exact hab
    | cons y s2 => simp at hlen
  | cons x t2 ih =>
    intro s a b hlen hab hdom
    cases s with
    | nil => simp at hlen
    | cons y s2 =>
      rw [List.foldl_cons, List.foldl_cons]
      refine ih s2 (min a x) (min b y) (by simpa using hlen) ?_ ?_
      · have hxy : x ≤ y := by simpa using hdom 0 (by simp)
        exact min_le_min hab hxy
      · intro j hj
        have := hdom (j + 1) (by simpa using Nat.succ_lt_succ hj)
        simpa using this

theorem foldl_min_pos :
    ∀ (t : List ℝ) (a : ℝ), 0 < a → (∀ x ∈ t, 0 < x) → 0 < t.foldl min a := by
  intro t
  induction t with
  | nil => intro a ha _; exact ha
  | cons x t2 ih =>
    intro a ha hall
    rw [List.foldl_cons]
    exact ih (min a x) (lt_min ha (hall x (List.mem_cons_self x t2)))
      (fun y hy => hall y (List.mem_cons_of_mem x hy))

theorem map_abs_of_pos (l : List ℝ) (h : ∀ x ∈ l, 0 < x) :
    l.map (fun x => |x|) = l := by
  calc l.map (fun x => |x|) = l.map id := List.map_congr_left (fun x hx => abs_of_pos (h x hx))
    _ = l := List.map_id l

theorem mem_getD_pos (l : List ℝ) (h : ∀ j, j < l.length → 0 < l.getD j 0) :
    ∀ x ∈ l, 0 < x := by
  intro x hx
  obtain ⟨j, hj, rfl⟩ := List.getElem_of_mem hx
  have := h j hj
  rwa [List.getD_eq_getElem?_getD, List.getElem?_eq_getElem hj] at this

/-- Worst-case-mode score monotonicity for pointwise-dominated positive lists. -/
theorem listScoreWorst_anti (t s : List ℝ) (hlen : t.length = s.length)
    (hdom : ∀ j, j < t.length → 0 < t.getD j 0 ∧ t.getD j 0 ≤ s.getD j 0) :
    listScoreWorst s ≤ listScoreWorst t := by
  cases t with
  | nil =>
    cases s with
    | nil => exact le_refl _
    | cons y s2 => simp at hlen
  | cons x t2 =>
    cases s with
    | nil => simp at hlen
    | cons y s2 =>
      have htpos : ∀ z ∈ x :: t2, 0 < z :=
        mem_getD_pos _ (fun j hj => (hdom j hj).1)
      have hspos : ∀ z ∈ y :: s2, 0 < z := by
        refine mem_getD_pos _ ?_
        intro j hj
        have hj2 : j < (x :: t2).length := by
          rw [hlen]
          exact hj
        exact lt_of_lt_of_le (hdom j hj2).1 (hdom j hj2).2
      unfold listScoreWorst
      rw [map_abs_of_pos _ htpos, map_abs_of_pos _ hspos]
      have hmin_t_pos : 0 < pyMin (x :: t2) :=
        foldl_min_pos t2 x (htpos x (List.mem_cons_self x t2))
          (fun z hz => htpos z (List.mem_cons_of_mem x hz))
      have hmono : pyMin (x :: t2) ≤ pyMin (y :: s2) := by
        unfold pyMin
        refine foldl_min_le_foldl_min t2 s2 x y (by simpa using hlen) ?_ ?_
        · have := (hdom 0 (by simp)).2
          simpa using this
        · intro j hj
          have := (hdom (j + 1) (by simpa using Nat.succ_lt_succ hj)).2
          simpa using this
      exact one_div_le_one_div_of_le hmin_t_pos hmono

/-- Sum-of-reciprocals-mode score monotonicity for pointwise-dominated positive lists. -/
theorem listScoreAll_anti :
    ∀ (t s : List ℝ), t.length = s.length →
      (∀ j, j < t.length → 0 < t.getD j 0 ∧ t.getD j 0 ≤ s.getD j 0) →
      listScoreAll s ≤ listScoreAll t := by
  intro t
  induction t with
  | nil =>
    intro s hlen _
    cases s with
    | nil => exact le_refl _
    | cons y s2 => simp at hlen
  | cons x t2 ih =>
    intro s hlen hdom
    cases s with
    | nil => simp at hlen
    | cons y s2 =>
      unfold listScoreAll
      rw [List.map_cons, List.map_cons, List.sum_cons, List.sum_cons]
      have hx : 0 < x := by simpa using (hdom 0 (by simp)).1
      have hxy : x ≤ y := by simpa using (hdom 0 (by simp)).2
      refine add_le_add ?_ ?_
      · rw [abs_of_pos hx, abs_of_pos (lt_of_lt_of_le hx hxy)]
        exact one_div_le_one_div_of_le hx hxy
      · refine ih s2 (by simpa using hlen) ?_
        intro j hj
        have := hdom (j + 1) (by simpa using Nat.succ_lt_succ hj)
        simpa using this

/-! ### C4 definitions -/

/-- twirledDerivDaggerDeriv (line 420): the per-germ `J^H J` collection,
`einsum('ijk,ijl->ikl', conj(twirledDeriv), twirledDeriv)`. -/
noncomputable def twirledDDD {m d2 Pp : ℕ} (Td : Fin m → Matrix (Fin d2) (Fin Pp) ℂ)
    (i : Fin m) : Matrix (Fin Pp) (Fin Pp) ℂ :=
  Matrix.of fun k l => ∑ j, star (Td i j k) * Td i j l

theorem twirledDDD_eq_conjTranspose_mul {m d2 Pp : ℕ}
    (Td : Fin m → Matrix (Fin d2) (Fin Pp) ℂ) (i : Fin m) :
    twirledDDD Td i = (Td i)ᴴ * Td i := by
  ext k l
  simp [twirledDDD, Matrix.mul_apply, Matrix.conjTranspose_apply]

theorem twirledDDD_posSemidef {m d2 Pp : ℕ}
    (Td : Fin m → Matrix (Fin d2) (Fin Pp) ℂ) (i : Fin m) :
    (twirledDDD Td i).PosSemidef := by
  rw [twirledDDD_eq_conjTranspose_mul]
  exact Matrix.posSemidef_conjTranspose_mul_self (Td i)

theorem weightedTDDD_eq_sum {m Pp : ℕ} (T : Fin m → Matrix (Fin Pp) (Fin Pp) ℂ)
    (w : List Bool) :
    weightedTDDD T w = ∑ i : Fin m, (if w.getD i.1 false then T i else 0) := by
  ext k l
  rw [Matrix.sum_apply]
  show (∑ i, (if w.getD i.1 false then (1 : ℂ) else 0) * T i k l) = _
  refine Finset.sum_congr rfl fun i _ => ?_
  by_cases h : w.getD i.1 false = true
  · rw [if_pos h, one_mul, if_pos h]
  · rw [if_neg h, zero_mul, if_neg h]
    rfl

theorem weightedTDDD_posSemidef {m d2 Pp : ℕ}
    (Td : Fin m → Matrix (Fin d2) (Fin Pp) ℂ) (w : List Bool) :
    (weightedTDDD (twirledDDD Td) w).PosSemidef := by
  rw [weightedTDDD_eq_sum]
  refine Finset.sum_induction _ _ (fun a b ha hb => ha.add hb) Matrix.PosSemidef.zero ?_
  intro i _
  by_cases h : w.getD i.1 false = true
  · rw [if_pos h]
    exact twirledDDD_posSemidef Td i
  · rw [if_neg h]
    exact Matrix.PosSemidef.zero

/-- Flipping weight `i` from 0 to 1 adds the `i`-th `J^H J` block to the
weighted sum. -/
theorem weightedTDDD_set_true {m Pp : ℕ} (T : Fin m → Matrix (Fin Pp) (Fin Pp) ℂ)
    (w : List Bool) (i : Fin m) (hlen : w.length = m) (hw : w.getD i.1 false = false) :
    weightedTDDD T (w.set i.1 true) = weightedTDDD T w + T i := by
  have hpoint : ∀ i' : Fin m, (if (w.set i.1 true).getD i'.1 false then (1 : ℂ) else 0) =
      (if w.getD i'.1 false then (1 : ℂ) else 0) + (if i' = i then 1 else 0) := by
    intro i'
    by_cases hii : i' = i
    · subst hii
      have hi : i'.1 < w.length := by
        rw [hlen]
        exact i'.2
      have hset : (w.set i'.1 true).getD i'.1 false = true := by
        rw [List.getD_eq_getElem?_getD, List.getElem?_set_eq_of_lt true hi]
        rfl
      rw [hset, hw, if_pos rfl, if_pos rfl]
      norm_num
    · have hne : i.1 ≠ i'.1 := fun hc => hii (Fin.ext hc.symm)
      have hset : (w.set i.1 true).getD i'.1 false = w.getD i'.1 false := by
        rw [List.getD_eq_getElem?_getD, List.getD_eq_getElem?_getD,
          List.getElem?_set_ne hne]
      rw [hset, if_neg hii, add_zero]
  ext k l
  show (∑ i', (if (w.set i.1 true).getD i'.1 false then (1 : ℂ) else 0) * T i' k l) =
    (∑ i', (if w.getD i'.1 false then (1 : ℂ) else 0) * T i' k l) + T i k l
  rw [Finset.sum_congr rfl fun i' _ => by rw [hpoint i', add_mul]]
  rw [Finset.sum_add_distrib]
  congr 1
  calc ∑ i', (if i' = i then (1 : ℂ) else 0) * T i' k l
      = ∑ i', (if i' = i then T i' k l else 0) := by
        refine Finset.sum_congr rfl fun i' _ => ?_
        by_cases h : i' = i
        · rw [if_pos h, if_pos h, one_mul]
        · rw [if_neg h, if_neg h, zero_mul]
    _ = T i k l := by
        rw [Finset.sum_ite_eq' Finset.univ i fun i' => T i' k l]
        rw [if_pos (Finset.mem_univ i)]

theorem getD_ofFn {n : ℕ} (f : Fin n → ℝ) (j : ℕ) (hj : j < n) :
    (List.ofFn f).getD j 0 = f ⟨j, hj⟩ := by
  have hj2 : j < (List.ofFn f).length := by
    rw [List.length_ofFn]
    exact hj
  rw [List.getD_eq_getElem?_getD, List.getElem?_eq_getElem hj2, List.getElem_ofFn]
  rfl

/-- C4: adding a germ (flipping a weight from 0 to 1) adds a
positive-semidefinite `J^H J` block to the weighted Jacobian sum, so every
sorted eigenvalue can only grow; with the first `nG` (gauge) eigenvalues
dropped and the remaining ones positive, both the sum-of-reciprocals score
and the worst-case score are monotonically non-increasing. -/
theorem C4_adding_germ_score_monotone {m d2 Pp : ℕ}
    (Td : Fin m → Matrix (Fin d2) (Fin Pp) ℂ) (w : List Bool) (i : Fin m)
    (hlen : w.length = m) (hw : w.getD i.1 false = false) (nG : ℕ)
    (xs ys : List ℝ)
    (hxs : IsSortedSpectrum (weightedTDDD (twirledDDD Td) w) xs)
    (hys : IsSortedSpectrum (weightedTDDD (twirledDDD Td) (w.set i.1 true)) ys)
    (hpos : ∀ j, nG ≤ j → j < Pp → 0 < xs.getD j 0) :
    listScoreAll (ys.drop nG) ≤ listScoreAll (xs.drop nG) ∧
    listScoreWorst (ys.drop nG) ≤ listScoreWorst (xs.drop nG) := by
  have hApsd := weightedTDDD_posSemidef Td w
  have hBpsd := twirledDDD_posSemidef Td i
  have hA : (weightedTDDD (twirledDDD Td) w).IsHermitian := hApsd.1
  have hAB : (weightedTDDD (twirledDDD Td) w + twirledDDD Td i).IsHermitian :=
    hA.add hBpsd.1
  rw [weightedTDDD_set_true (twirledDDD Td) w i hlen hw] at hys
  have hxlen : xs.length = Pp := hxs.1
  have hylen : ys.length = Pp := hys.1
  have hxeq := isSortedSpectrum_eq_sortedEigList hA xs hxs
  have hyeq := isSortedSpectrum_eq_sortedEigList hAB ys hys
  have hdom : ∀ j, j < Pp → xs.getD j 0 ≤ ys.getD j 0 := by
    intro j hj
    rw [hxeq, hyeq, getD_ofFn _ j hj, getD_ofFn _ j hj]
    exact sortedEig_le_sortedEig_add hA hBpsd hAB ⟨j, hj⟩
  have hlen2 : (xs.drop nG).length = (ys.drop nG).length := by
    rw [List.length_drop, List.length_drop, hxlen, hylen]
  have hdom2 : ∀ j, j < (xs.drop nG).length →
      0 < (xs.drop nG).getD j 0 ∧ (xs.drop nG).getD j 0 ≤ (ys.drop nG).getD j 0 := by
    intro j hj
    have hjP : nG + j < Pp := by
      rw [List.length_drop, hxlen] at hj
      omega
    rw [getD_drop, getD_drop]
    exact ⟨hpos (nG + j) (Nat.le_add_right nG j) hjP, hdom (nG + j) hjP⟩
  exact ⟨listScoreAll_anti (xs.drop nG) (ys.drop nG) hlen2 hdom2,
    listScoreWorst_anti (xs.drop nG) (ys.drop nG) hlen2 hdom2⟩

/-- The per-germ Jacobian collection of the C4 witness: two germs, each with
a one-by-one Jacobian `[[1]]`. -/
noncomputable def c4Td : Fin 2 → Matrix (Fin 1) (Fin 1) ℂ := fun _ => Matrix.of fun _ _ => 1

theorem c4Td_entry (i : Fin 2) : twirledDDD c4Td i 0 0 = 1 := by
  show (∑ j : Fin 1, star (c4Td i j 0) * c4Td i j 0) = 1
  rw [Fin.sum_univ_one]
  show star (1 : ℂ) * 1 = 1
  rw [star_one, one_mul]

theorem c4spec_before : IsSortedSpectrum (weightedTDDD (twirledDDD c4Td) [true, false]) [1] := by
  apply isSortedSpectrum_fin_one
  show (∑ i : Fin 2, (if [true, false].getD i.1 false then (1 : ℂ) else 0) *
    twirledDDD c4Td i 0 0) = 1
  rw [Fin.sum_univ_two, c4Td_entry 0, c4Td_entry 1, mul_one, mul_one]
  rw [if_pos (by decide), if_neg (by decide), add_zero]

theorem c4spec_after :
    IsSortedSpectrum (weightedTDDD (twirledDDD c4Td) ([true, false].set 1 true)) [2] := by
  apply isSortedSpectrum_fin_one
  show (∑ i : Fin 2, (if ([true, false].set 1 true).getD i.1 false then (1 : ℂ) else 0) *
    twirledDDD c4Td i 0 0) = 2
  rw [Fin.sum_univ_two, c4Td_entry 0, c4Td_entry 1, mul_one, mul_one]
  rw [if_pos (by decide), if_pos (by decide)]
  norm_num

/-- Witness for `C4_adding_germ_score_monotone` at a concrete input. -/
theorem C4_witness :
    listScoreAll (([2] : List ℝ).drop 0) ≤ listScoreAll (([1] : List ℝ).drop 0) ∧
    listScoreWorst (([2] : List ℝ).drop 0) ≤ listScoreWorst (([1] : List ℝ).drop 0) :=
  C4_adding_germ_score_monotone c4Td [true, false] 1 rfl rfl 0 [1] [2]
    c4spec_before c4spec_after
    (by
      intro j h1 h2
      interval_cases j
      norm_num)
